import Mathlib

/-!
Verification of the Vault Index and Link-Consistency Engine of the
obsidian-reborn repository (Electron main process, `src/vite.config.ts`).

The TypeScript source is shallowly embedded below.  Strings are modelled as
Lean `String` / `List Char` (JS UTF-16 code units restricted to the BMP agree
with Lean code points on all inputs appearing here); JS `number` scores
produced by `fuzzyScore` are modelled as exact fractions `num / den` over
`Nat` (the source only ever divides once and compares the results); JS `Map`
and `Set` are modelled as insertion-ordered association lists, mirroring the
JS iteration-order guarantee; asynchronous file I/O is modelled as explicit
state passing over a finite file-system map, and a thrown exception as an
`Option` / error result.  `path.resolve` is modelled as the identity (the
app only passes absolute normalized paths), `localeCompare`-based sorts are
modelled with code-point lexicographic order (`charsLe`), JS's stable
`Array.sort` is modelled with the stable `List.insertionSort`, and
`process.platform ∈ ['win32','darwin']` is a Boolean parameter `plat`.
Recursions over character lists use an explicit fuel argument (always called
with the list length, which suffices) so that every definition reduces in
the kernel.
-/

namespace VaultEngine

/-! ## Small string helpers (model plumbing) -/

/-- Lexicographic order on char lists by code point, as a Boolean.  Models the
JS string comparison used by default sorts and by localeCompare in this
development. -/
def charsLe : List Char → List Char → Bool
  | [], _ => true
  | _ :: _, [] => false
  | a :: as, b :: bs => if a = b then charsLe as bs else decide (a < b)

/-- String comparison via `charsLe` on the underlying characters. -/
def strLe (a b : String) : Bool := charsLe a.data b.data

/-- Model of JS `toLowerCase` (character-wise ASCII lowering). -/
def lowerStr (s : String) : String := ⟨s.data.map Char.toLower⟩

/-- Whitespace predicate for the trim model. -/
def isWS (c : Char) : Bool := c.isWhitespace

/-- Model of JS `trim`: drop leading and trailing whitespace. -/
def trimStr (s : String) : String :=
  ⟨((s.data.dropWhile isWS).reverse.dropWhile isWS).reverse⟩

/-- Source `normalizeTitle`: `value.trim().toLowerCase()`. -/
def normalizeTitle (value : String) : String := lowerStr (trimStr value)

/-- Characters after the final slash of a path (POSIX basename). -/
def basenameData (p : String) : List Char :=
  (p.data.reverse.takeWhile (· ≠ '/')).reverse

/-- Source `noteTitleFromPath`: `path.basename(filePath, path.extname(filePath))`.
Node's `extname` is the suffix from the last dot of the basename, except when
that dot is the basename's first character (hidden files have no extension). -/
def noteTitleFromPath (p : String) : String :=
  let b := basenameData p
  let afterDot := b.reverse.takeWhile (· ≠ '.')
  if afterDot.length + 2 ≤ b.length then ⟨b.take (b.length - 1 - afterDot.length)⟩
  else ⟨b⟩

/-- Source `isMarkdownFile`: `filePath.toLowerCase().endsWith('.md')`. -/
def isMarkdownFile (p : String) : Bool :=
  ['.', 'm', 'd'].isSuffixOf (lowerStr p).data

/-- Model of Node `path.relative(vault, p)` for the only shape the app uses:
`p` inside the vault root; otherwise the path itself is kept. -/
def relativePath (vault p : String) : String :=
  if (vault.data ++ ['/']).isPrefixOf p.data then
    ⟨p.data.drop (vault.data.length + 1)⟩
  else p

/-! ## Fuzzy scores as exact fractions

The source computes `score / Math.max(target.length, 1)` as a JS number and
only ever compares the results; we carry the exact fraction. -/

/-- Exact fraction model of a fuzzy score (`num / den`, `den` positive by
construction everywhere below). -/
structure Score where
  num : Nat
  den : Nat
deriving Repr, DecidableEq

/-- Score equality as rational equality (cross multiplication). -/
def scoreEq (a b : Score) : Bool := a.num * b.den = b.num * a.den

/-- Score strict order as rational order (cross multiplication). -/
def scoreLt (a b : Score) : Bool := decide (a.num * b.den < b.num * a.den)

/-- A score is positive iff its numerator is. -/
def scorePos (a : Score) : Bool := decide (0 < a.num)

/-- The zero score. -/
def scoreZero : Score := ⟨0, 1⟩

/-- Model of JS `Math.max` on two scores as used by the quick switcher. -/
def scoreMax (a b : Score) : Score := if scoreLt a b then b else a

/-- First occurrence index of a character in a list (model of
`String.indexOf` relative to a start position). -/
def findFrom (c : Char) : List Char → Option Nat
  | [] => none
  | d :: t => if d = c then some 0 else (findFrom c t).map (· + 1)

/-- The greedy scan of source `fuzzyScore`: walk the query characters,
searching `target` from position `start` (`lastMatch + 1` in the source);
award 2 points for a character found at the very start of the search window
(it immediately follows the previous match), 1 otherwise; fail with `none`
when a character cannot be found. -/
def fuzzyPoints (t : List Char) : List Char → Nat → Option Nat
  | [], _ => some 0
  | c :: q, start =>
    match findFrom c (t.drop start) with
    | none => none
    | some j => (fuzzyPoints t q (start + j + 1)).map (· + (if j = 0 then 2 else 1))

/-- Source `fuzzyScore`.  Empty query scores 0; a failed scan scores 0;
otherwise the points divided by `max target.length 1`. -/
def fuzzyScore (query target : String) : Score :=
  if query.data = [] then scoreZero
  else
    match fuzzyPoints target.data query.data 0 with
    | none => scoreZero
    | some pts => ⟨pts, max target.data.length 1⟩

/-- The spec's matching predicate, in the spec's words: the query is a
case-insensitive subsequence of the target. -/
def specCaseInsensitiveSubseq (q t : String) : Prop :=
  List.Sublist (lowerStr q).data (lowerStr t).data

instance (q t : String) : Decidable (specCaseInsensitiveSubseq q t) :=
  List.decidableSublist _ _

/-! ## Tag extraction (code-fence aware)

Source: `tagRegex = /(^|[^A-Za-z0-9\/_-])#([A-Za-z0-9][A-Za-z0-9\/_-]*)/g`,
scanned per line with `exec` over the lines kept by `stripCodeFences`.
The scanner below is the operational reading of that regex: a `#` starts a
tag when it sits at line start or after a character outside `[A-Za-z0-9/_-]`
(`prevOk`), and is followed by an alphanumeric; the tag body is the maximal
run of `[A-Za-z0-9/_-]` characters.  After a match, scanning resumes right
after the body, whose last character is in the class, so a `#` immediately
following a tag cannot start a new one — exactly the regex `lastIndex`
behaviour. -/

/-- Membership in the identifier class `[A-Za-z0-9/_-]` of the tag regex. -/
def identChar (c : Char) : Bool := c.isAlphanum || c = '/' || c = '_' || c = '-'

/-- Fuel-driven per-line tag scanner (fuel is always the list length). -/
def tagScanGo : Nat → Bool → List Char → List String
  | 0, _, _ => []
  | _ + 1, _, [] => []
  | fuel + 1, prevOk, c :: rest =>
    if c = '#' ∧ prevOk then
      match rest with
      | [] => []
      | d :: cs =>
        if d.isAlphanum then
          (⟨d :: cs.takeWhile identChar⟩ : String) ::
            tagScanGo fuel false (cs.dropWhile identChar)
        else tagScanGo fuel (!identChar c) rest
    else tagScanGo fuel (!identChar c) rest

/-- All tag tokens of one line, in order (capture group 2 of the regex). -/
def tagsInLine (line : List Char) : List String :=
  tagScanGo line.length true line

/-- Split on `\r?\n` (model of the source's `content.split(/\r?\n/)`);
the accumulator holds the current line reversed. -/
def splitLinesGo (cur : List Char) : List Char → List (List Char)
  | [] => [cur.reverse]
  | c :: rest =>
    if c = '\n' then
      (match cur with
        | '\r' :: cur1 => cur1.reverse
        | _ => cur.reverse) :: splitLinesGo [] rest
    else splitLinesGo (c :: cur) rest

/-- Lines of a content string. -/
def splitLines (s : String) : List (List Char) := splitLinesGo [] s.data

/-- The backquote character (code 96). -/
def fenceTick : Char := Char.ofNat 96

/-- A line whose trimmed-start content begins with three backquotes or three
tildes toggles the fenced-block state. -/
def isFenceLine (line : List Char) : Bool :=
  let t := line.dropWhile isWS
  t.take 3 = [fenceTick, fenceTick, fenceTick] || t.take 3 = ['~', '~', '~']

/-- Source `stripCodeFences` loop: fence lines are dropped and toggle the
in-block flag; lines inside a block are dropped; all others are kept. -/
def stripFencesGo : Bool → List (List Char) → List (List Char)
  | _, [] => []
  | inB, line :: rest =>
    if isFenceLine line then stripFencesGo (!inB) rest
    else if inB then stripFencesGo inB rest
    else line :: stripFencesGo inB rest

/-- Source `stripCodeFences`. -/
def stripCodeFences (content : String) : List (List Char) :=
  stripFencesGo false (splitLines content)

/-- Each line annotated with the fenced-block state in force when it is
scanned (the reference reading of the fence toggle, used to state what
`stripCodeFences` keeps). -/
def fenceStates (inB : Bool) : List (List Char) → List (List Char × Bool)
  | [] => []
  | l :: rest => (l, inB) :: fenceStates (if isFenceLine l then !inB else inB) rest

/-- Insertion-ordered deduplication (model of collecting into a JS `Set`). -/
def dedupFirstGo (seen : List String) : List String → List String
  | [] => []
  | x :: xs =>
    if x ∈ seen then dedupFirstGo seen xs else x :: dedupFirstGo (x :: seen) xs

/-- Keep first occurrences, in order. -/
def dedupFirst (l : List String) : List String := dedupFirstGo [] l

/-- The string order used for JS default `Array.sort()` in this model. -/
def strLeRel (a b : String) : Prop := strLe a b = true

instance : DecidableRel strLeRel := fun a b => by
  unfold strLeRel; infer_instance

/-- Source `parseTags`: collect the lowercased tags of all non-fenced lines
into a `Set` (first-occurrence order), then sort. -/
def parseTags (content : String) : List String :=
  List.insertionSort strLeRel
    (dedupFirst ((stripCodeFences content).flatMap (fun l => (tagsInLine l).map lowerStr)))

/-- Source `normalizeTag`: strip one leading `#`, lowercase. -/
def normalizeTag (tag : String) : String :=
  lowerStr ⟨match tag.data with
    | '#' :: r => r
    | r => r⟩

/-! ## Wikilink parsing and rewriting

Source: `wikiLinkRegex = /(!?)\[\[([^\]|]+)(\|[^\]]+)?\]\]/g`.  The match
attempt at a position is deterministic: an optional `!` immediately followed
by `[[`; then the maximal nonempty run of characters other than `]` and `|`
(the target — the regex engine cannot profit from a shorter run because a
shorter target leaves the next character in the same class, failing both the
alias branch and `]]`); then either `|` followed by the maximal nonempty run
of non-`]` characters (the alias, backtracking over which cannot help since
a shorter run still faces a non-`]` character) or nothing; then `]]`. -/

/-- Characters allowed in a wikilink target: not `]` and not `|`. -/
def targetChar (c : Char) : Bool := !(c = ']') && !(c = '|')

/-- Characters allowed in a wikilink alias segment: not `]`. -/
def notRBrack (c : Char) : Bool := !(c = ']')

/-- Attempt to match the body of a wikilink (after `[[`): target, optional
alias (with its leading `|`), and requires the closing `]]`; returns
`(target, aliasPart, rest)`. -/
def matchBody (rest : List Char) : Option (List Char × List Char × List Char) :=
  if (rest.takeWhile targetChar).isEmpty then none
  else
    match rest.dropWhile targetChar with
    | '|' :: r2 =>
      if (r2.takeWhile notRBrack).isEmpty then none
      else
        match r2.dropWhile notRBrack with
        | ']' :: ']' :: r4 =>
          some (rest.takeWhile targetChar, '|' :: r2.takeWhile notRBrack, r4)
        | _ => none
    | ']' :: ']' :: r4 => some (rest.takeWhile targetChar, [], r4)
    | _ => none

/-- Attempt to match a full wikilink token at the head of the input:
`(embed, target, aliasPart, rest)`. -/
def tryMatchWiki : List Char → Option (Bool × List Char × List Char × List Char)
  | '!' :: '[' :: '[' :: rest => (matchBody rest).map (fun x => (true, x.1, x.2.1, x.2.2))
  | '[' :: '[' :: rest => (matchBody rest).map (fun x => (false, x.1, x.2.1, x.2.2))
  | _ => none

/-- A token of content: either a plain character or a wikilink. -/
inductive WTok where
  | chr (c : Char)
  | link (embed : Bool) (target : List Char) (aliasPart : List Char)
deriving Repr, DecidableEq

/-- Render a token back to its exact source text. -/
def renderTok : WTok → List Char
  | .chr c => [c]
  | .link e t a => (if e then ['!'] else []) ++ '[' :: '[' :: (t ++ a ++ [']', ']'])

/-- Tokenize content the way the global-regex replace walks it: try a match
at every position, emitting the unmatched character otherwise (fuel is
always the list length). -/
def wikiTokensGo : Nat → List Char → List WTok
  | 0, _ => []
  | _ + 1, [] => []
  | fuel + 1, c :: rest =>
    match tryMatchWiki (c :: rest) with
    | some (e, t, a, r) => .link e t a :: wikiTokensGo fuel r
    | none => .chr c :: wikiTokensGo fuel rest

/-- Token decomposition of a content string. -/
def wikiTokens (cs : List Char) : List WTok := wikiTokensGo cs.length cs

/-- Ordered association list modelling a JS `Map<string,string>`. -/
def mapGet : List (String × String) → String → Option String
  | [], _ => none
  | (k, v) :: r, key => if k = key then some v else mapGet r key

/-- JS `Map.set`: replace in place, else append. -/
def mapSet : List (String × String) → String → String → List (String × String)
  | [], k, v => [(k, v)]
  | (k0, v0) :: r, k, v => if k0 = k then (k, v) :: r else (k0, v0) :: mapSet r k v

/-- JS `Map.delete`. -/
def mapDelete : List (String × String) → String → List (String × String)
  | [], _ => []
  | (k0, v0) :: r, k => if k0 = k then r else (k0, v0) :: mapDelete r k

/-- Source `resolveTitle`: look the normalized title up in the snapshot. -/
def resolveTitle (title : String) (map : List (String × String)) : Option String :=
  mapGet map (normalizeTitle title)

/-- The replacement callback of `updateWikiLinksInContent` applied to one
token: a wikilink whose target resolves to `sourcePath` has its bracketed
target replaced by `newTitle`, embed marker and alias preserved; everything
else is returned verbatim. -/
def rewriteTok (titleMap : List (String × String)) (sourcePath newTitle : String) :
    WTok → List Char
  | .chr c => [c]
  | .link e t a =>
    if resolveTitle ⟨t⟩ titleMap = some sourcePath then renderTok (.link e newTitle.data a)
    else renderTok (.link e t a)

/-- The global-regex replace loop of `updateWikiLinksInContent` (fuel is
always the list length). -/
def wikiReplaceGo (titleMap : List (String × String)) (sourcePath newTitle : String) :
    Nat → List Char → List Char
  | 0, _ => []
  | _ + 1, [] => []
  | fuel + 1, c :: rest =>
    match tryMatchWiki (c :: rest) with
    | some (e, t, a, r) =>
      rewriteTok titleMap sourcePath newTitle (.link e t a) ++
        wikiReplaceGo titleMap sourcePath newTitle fuel r
    | none => c :: wikiReplaceGo titleMap sourcePath newTitle fuel rest

/-- Source `updateWikiLinksInContent`. -/
def updateWikiLinksInContent (content sourcePath newTitle : String)
    (titleMap : List (String × String)) : String :=
  ⟨wikiReplaceGo titleMap sourcePath newTitle content.data.length content.data⟩

/-- Source `parseWikiLinks`: the normalized targets of all wikilink tokens,
in order. -/
def parseWikiLinks (content : String) : List String :=
  (wikiTokens content.data).filterMap (fun tok =>
    match tok with
    | .link _ t _ => some (normalizeTitle ⟨t⟩)
    | .chr _ => none)

/-- Well-formedness of an alias segment as produced by a match: empty, or a
leading bar followed by a nonempty run free of closing brackets. -/
def aliasWF (a : List Char) : Prop :=
  a = [] ∨ (∃ arun, a = '|' :: arun ∧ arun ≠ [] ∧ ∀ c ∈ arun, notRBrack c = true)

/-- Concatenated rendering of a token list. -/
def renderToks (toks : List WTok) : List Char :=
  toks.foldr (fun tok acc => renderTok tok ++ acc) []

/-- Concatenated rewriting of a token list. -/
def rewriteToks (titleMap : List (String × String)) (sourcePath newTitle : String)
    (toks : List WTok) : List Char :=
  toks.foldr (fun tok acc => rewriteTok titleMap sourcePath newTitle tok ++ acc) []

/-- The token-level effect of the replacement callback: retarget the links
that resolve to `sourcePath`, keep everything else. -/
def substTok (titleMap : List (String × String)) (sourcePath newTitle : String) :
    WTok → WTok
  | .chr c => .chr c
  | .link e t a =>
    if resolveTitle ⟨t⟩ titleMap = some sourcePath then .link e newTitle.data a
    else .link e t a

/-- Well-formedness of a link token as the tokenizer produces it. -/
def linkWF : WTok → Prop
  | .chr _ => True
  | .link _ t a => t ≠ [] ∧ (∀ c ∈ t, targetChar c = true) ∧ aliasWF a

/-- A plain-character token that is not an opening bracket (contents whose
brackets all belong to wikilinks rewrite stably). -/
def chrNotLBrack : WTok → Prop
  | .chr c => c ≠ '['
  | .link _ _ _ => True

instance (tok : WTok) : Decidable (chrNotLBrack tok) :=
  match tok with
  | .chr c => inferInstanceAs (Decidable (c ≠ '['))
  | .link _ _ _ => inferInstanceAs (Decidable True)

/-- Every link that resolves to `sourcePath` is written exactly as
`oldTitle`. -/
def affectedExact (titleMap : List (String × String)) (sourcePath oldTitle : String) :
    WTok → Prop
  | .chr _ => True
  | .link _ t _ => resolveTitle ⟨t⟩ titleMap = some sourcePath → t = oldTitle.data

instance (m : List (String × String)) (sp oldT : String) (tok : WTok) :
    Decidable (affectedExact m sp oldT tok) :=
  match tok with
  | .chr _ => inferInstanceAs (Decidable True)
  | .link _ t _ =>
    inferInstanceAs (Decidable (resolveTitle ⟨t⟩ m = some sp → t = oldT.data))

/-- A link untouched by the first snapshot does not resolve to the renamed
path under the second snapshot. -/
def unaffectedFree (m1 : List (String × String)) (sp : String)
    (m2 : List (String × String)) (tp : String) : WTok → Prop
  | .chr _ => True
  | .link _ t _ => resolveTitle ⟨t⟩ m1 ≠ some sp → resolveTitle ⟨t⟩ m2 ≠ some tp

instance (m1 : List (String × String)) (sp : String) (m2 : List (String × String))
    (tp : String) (tok : WTok) : Decidable (unaffectedFree m1 sp m2 tp tok) :=
  match tok with
  | .chr _ => inferInstanceAs (Decidable True)
  | .link _ t _ =>
    inferInstanceAs (Decidable (resolveTitle ⟨t⟩ m1 ≠ some sp → resolveTitle ⟨t⟩ m2 ≠ some tp))

/-! ## The registry (`VaultIndex`) -/

/-- Source `NoteIndexEntry` (`lastModified` is display-only in the source and
modelled as a constant). -/
structure NoteIndexEntry where
  path : String
  title : String
  content : String
  links : List String
  tags : List String
  lastModified : Nat
  lowerTitle : String
  lowerPath : String
deriving Repr, DecidableEq

/-- The notes map keyed by path (JS `Map` in insertion order): lookup. -/
def notesGet : List NoteIndexEntry → String → Option NoteIndexEntry
  | [], _ => none
  | e :: r, p => if e.path = p then some e else notesGet r p

/-- The notes map: set (replace in place, else append). -/
def notesSet : List NoteIndexEntry → NoteIndexEntry → List NoteIndexEntry
  | [], e => [e]
  | e0 :: r, e => if e0.path = e.path then e :: r else e0 :: notesSet r e

/-- The notes map: delete. -/
def notesDelete : List NoteIndexEntry → String → List NoteIndexEntry
  | [], _ => []
  | e0 :: r, p => if e0.path = p then r else e0 :: notesDelete r p

/-- Multimap (JS `Map<string, Set<string>>`): lookup. -/
def multiGet : List (String × List String) → String → Option (List String)
  | [], _ => none
  | (k, vs) :: r, key => if k = key then some vs else multiGet r key

/-- JS `Set.add` on an insertion-ordered list. -/
def setAdd (l : List String) (v : String) : List String :=
  if v ∈ l then l else l ++ [v]

/-- Multimap: add `v` to the set at key `k`, creating the key if absent. -/
def multiAdd : List (String × List String) → String → String → List (String × List String)
  | [], k, v => [(k, [v])]
  | (k0, vs) :: r, k, v =>
    if k0 = k then (k0, setAdd vs v) :: r else (k0, vs) :: multiAdd r k v

/-- The in-memory state of source `VaultIndex` (the MiniSearch full-text
index is out of scope of the claims and omitted). -/
structure IndexState where
  vaultPath : String
  notes : List NoteIndexEntry
  titleToPath : List (String × String)
  backlinks : List (String × List String)
  tagIndex : List (String × List String)
deriving Repr, DecidableEq

/-- Source `rebuildBacklinks`: for every note and every outgoing link, in
order, resolve the link through the title map and record the note as a
backlink source of the resolved target; unresolvable links are skipped. -/
def rebuildBacklinksModel (notes : List NoteIndexEntry) (tm : List (String × String)) :
    List (String × List String) :=
  notes.foldl (fun m e =>
    e.links.foldl (fun m2 l =>
      match mapGet tm l with
      | none => m2
      | some tgt => multiAdd m2 tgt e.path) m) []

/-- Source `rebuildTagIndex`. -/
def rebuildTagIndexModel (notes : List NoteIndexEntry) : List (String × List String) :=
  notes.foldl (fun m e => e.tags.foldl (fun m2 tg => multiAdd m2 tg e.path) m) []

/-- Source `rebuildDerivedIndexes` (backlinks and tag index; the search index
is omitted). -/
def rebuildDerived (st : IndexState) : IndexState :=
  { st with backlinks := rebuildBacklinksModel st.notes st.titleToPath,
            tagIndex := rebuildTagIndexModel st.notes }

/-- Source `getBacklinks`: the recorded set, or empty. -/
def getBacklinksModel (st : IndexState) (filePath : String) : List String :=
  (multiGet st.backlinks filePath).getD []

/-- Source `getAffectedFilesForRename`: the backlink set of the path, sorted
(localeCompare modelled as code-point order). -/
def getAffectedFilesForRenameModel (st : IndexState) (sourcePath : String) : List String :=
  List.insertionSort strLeRel ((multiGet st.backlinks sourcePath).getD [])

/-- Comparator of source `getTagSummary` as a ≤-relation: count descending,
then tag ascending. -/
def tagSummaryLeB (a b : String × Nat) : Bool :=
  if a.2 = b.2 then strLe a.1 b.1 else decide (b.2 < a.2)

/-- Propositional form of `tagSummaryLeB`. -/
def tagSummaryLe (a b : String × Nat) : Prop := tagSummaryLeB a b = true

instance : DecidableRel tagSummaryLe := fun a b => by
  unfold tagSummaryLe; infer_instance

/-- Source `getTagSummary`. -/
def getTagSummaryModel (st : IndexState) : List (String × Nat) :=
  List.insertionSort tagSummaryLe (st.tagIndex.map (fun kv => (kv.1, kv.2.length)))

/-! ## File system and I/O model -/

/-- A file system as a finite map path → content.  `failWrites` models the
set of paths whose write throws; `ci` models a case-insensitive file system
(keys match up to letter case). -/
structure FS where
  files : List (String × String)
  failWrites : List String
  ci : Bool
deriving Repr, DecidableEq

/-- Whether a stored key names the same file as `p` on this file system. -/
def keyMatches (ci : Bool) (k p : String) : Bool :=
  if ci then lowerStr k = lowerStr p else k = p

/-- Model of `fs.readFile` (success case). -/
def fsLookup (fs : FS) (p : String) : Option String :=
  (fs.files.find? (fun kv => keyMatches fs.ci kv.1 p)).map Prod.snd

/-- Model of `existsSync`. -/
def existsFS (fs : FS) (p : String) : Bool := (fsLookup fs p).isSome

/-- Store a file under an exact key (create or overwrite). -/
def fsSetFile : List (String × String) → String → String → List (String × String)
  | [], p, c => [(p, c)]
  | (k, v) :: r, p, c => if k = p then (p, c) :: r else (k, v) :: fsSetFile r p c

/-- Remove the entry for `p` (respecting case sensitivity). -/
def fsRemove (ci : Bool) : List (String × String) → String → List (String × String)
  | [], _ => []
  | (k, v) :: r, p => if keyMatches ci k p then r else (k, v) :: fsRemove ci r p

/-- Model of `fs.writeFile`: throws (`none`) on the designated failure
paths. -/
def writeFileFS (fs : FS) (p c : String) : Option FS :=
  if p ∈ fs.failWrites then none
  else some { fs with files := fsSetFile fs.files p c }

/-- Model of `fs.rename`: throws when the source does not exist; moves the
content, overwriting any entry at the target. -/
def renameFS (fs : FS) (a b : String) : Option FS :=
  match fsLookup fs a with
  | none => none
  | some content => some { fs with files := fsSetFile (fsRemove fs.ci fs.files a) b content }

/-! ## Rename coordination -/

/-- Error text of source `checkRenameConflict`. -/
def conflictError (targetPath : String) : String :=
  "Cannot rename: \"" ++ targetPath ++ "\" already exists."

/-- Source case-only test: equal after lowering, but not equal
(`path.resolve` is the identity in this model). -/
def isCaseOnlyChange (sp tp : String) : Bool :=
  lowerStr sp = lowerStr tp && decide (sp ≠ tp)

/-- Source `checkRenameConflict`: `some` carries the thrown error.  `plat`
models `['win32','darwin'].includes(process.platform)`. -/
def checkRenameConflictModel (plat : Bool) (fs : FS) (sp tp : String) : Option String :=
  if sp = tp then none
  else if existsFS fs tp && !(isCaseOnlyChange sp tp && plat) then some (conflictError tp)
  else none

/-- Source `renamePathSafe`: no-op when source equals target; a case-only
rename on a case-insensitive platform routes through a temporary name
(`now` models the `Date.now()` suffix); otherwise a single rename. -/
def renamePathSafeModel (plat : Bool) (now : String) (fs : FS) (sp tp : String) : Option FS :=
  if sp = tp then some fs
  else if isCaseOnlyChange sp tp && plat then
    match renameFS fs sp (tp ++ ".tmp-" ++ now) with
    | none => none
    | some fs1 => renameFS fs1 (tp ++ ".tmp-" ++ now) tp
  else renameFS fs sp tp

/-- The entry built by source `indexFile` for a file's content
(`lastModified` is display-only and modelled as a constant). -/
def mkEntry (st : IndexState) (filePath content : String) : NoteIndexEntry :=
  { path := filePath, title := noteTitleFromPath filePath, content := content,
    links := parseWikiLinks content, tags := parseTags content,
    lastModified := 0,
    lowerTitle := normalizeTitle (noteTitleFromPath filePath),
    lowerPath := lowerStr (relativePath st.vaultPath filePath) }

/-- The title map source `indexFile` writes into: when `updateTitleMap` is
set and the path was already indexed, the stale title key is deleted
first. -/
def tmForIndex (st : IndexState) (filePath : String) (updateTitleMap : Bool) :
    List (String × String) :=
  if updateTitleMap then
    match notesGet st.notes filePath with
    | some existing => mapDelete st.titleToPath existing.lowerTitle
    | none => st.titleToPath
  else st.titleToPath

/-- Source private `indexFile`: read the file, parse links and tags, store
the entry and the title mapping.  `none` models the read throwing. -/
def indexFileModel (fs : FS) (st : IndexState) (filePath : String) (updateTitleMap : Bool) :
    Option IndexState :=
  if !isMarkdownFile filePath then some st
  else
    match fsLookup fs filePath with
    | none => none
    | some content =>
      some { st with notes := notesSet st.notes (mkEntry st filePath content),
                     titleToPath := mapSet (tmForIndex st filePath updateTitleMap)
                       (normalizeTitle (noteTitleFromPath filePath)) filePath }

/-- Source `removeFile`: drop the record and its title entry, rebuild
derived state; silently ignores unknown paths. -/
def removeFileModel (st : IndexState) (filePath : String) : IndexState :=
  match notesGet st.notes filePath with
  | none => st
  | some existing =>
    rebuildDerived { st with notes := notesDelete st.notes filePath,
                             titleToPath := mapDelete st.titleToPath existing.lowerTitle }

/-- Source `updateFile` (`indexOne` of the spec): re-index one file and
rebuild derived state. -/
def updateFileModel (fs : FS) (st : IndexState) (filePath : String) : Option IndexState :=
  (indexFileModel fs st filePath true).map rebuildDerived

/-- Source `build` (`indexAll` of the spec): fresh state, index every file
(the spec fixes a deterministic scan order; the file list is given in that
order), then rebuild derived state. -/
def buildModel (vault : String) (fs : FS) (files : List String) : Option IndexState :=
  (files.foldl
      (fun acc p =>
        match acc with
        | none => none
        | some st => indexFileModel fs st p false)
      (some { vaultPath := vault, notes := [], titleToPath := [],
              backlinks := [], tagIndex := [] })).map
    rebuildDerived

/-- The `applyRename` per-file loop over the adjusted affected paths: read,
rewrite, write back only when changed; on a throw, the current file and all
remaining ones are recorded as failed and processing stops.  Returns the
file system, the updated list, the failed list, and the error if any. -/
def rewriteLoop (sp nt : String) (snap : List (String × String)) :
    FS → List String → FS × List String × List String × Option String
  | fs, [] => (fs, [], [], none)
  | fs, p :: rest =>
    match fsLookup fs p with
    | none => (fs, [], p :: rest, some "read failed")
    | some content =>
      let nextContent := updateWikiLinksInContent content sp nt snap
      if nextContent ≠ content then
        match writeFileFS fs p nextContent with
        | none => (fs, [], p :: rest, some "write failed")
        | some fs1 =>
          match rewriteLoop sp nt snap fs1 rest with
          | (fs2, upd, fl, err) => (fs2, p :: upd, fl, err)
      else
        match rewriteLoop sp nt snap fs rest with
        | (fs2, upd, fl, err) => (fs2, p :: upd, fl, err)

/-- The post-loop re-indexing of `applyRename`: index each markdown path in
order; a read failure stops the walk and reports the error (the source's
`catch` then returns). -/
def indexMany (fs : FS) : IndexState → List String → IndexState × Option String
  | st, [] => (st, none)
  | st, p :: ps =>
    if isMarkdownFile p then
      match indexFileModel fs st p true with
      | none => (st, some "read failed")
      | some st1 => indexMany fs st1 ps
    else indexMany fs st ps

/-- Source `RenameApplyResult`. -/
structure RenameApplyResult where
  ok : Bool
  error : Option String
  sourcePath : String
  targetPath : String
  updatedFiles : List String
  failedFiles : List String
deriving Repr, DecidableEq

/-- The list of files `applyRename` walks: the sorted affected files when
the title text changes (none otherwise), with the renamed file's own path
remapped to the target (a note can link to itself). -/
def adjustedPathsFor (idx : IndexState) (sourcePath targetPath : String) : List String :=
  (if noteTitleFromPath sourcePath ≠ noteTitleFromPath targetPath
    then getAffectedFilesForRenameModel idx sourcePath else []).map
    (fun f => if f = sourcePath then targetPath else f)

/-- Source `entry:applyRename` handler: conflict check, move, early success
for non-note files, snapshot, affected-file rewrite loop (only when the
title text changes), then registry reconciliation; every thrown error is
caught and returned with the lists accumulated so far, with no rollback. -/
def applyRenameModel (plat : Bool) (now : String) (fs : FS) (idx : IndexState)
    (sourcePath targetPath : String) : RenameApplyResult × FS × IndexState :=
  match checkRenameConflictModel plat fs sourcePath targetPath with
  | some err => (⟨false, some err, sourcePath, targetPath, [], []⟩, fs, idx)
  | none =>
    match renamePathSafeModel plat now fs sourcePath targetPath with
    | none => (⟨false, some "rename failed", sourcePath, targetPath, [], []⟩, fs, idx)
    | some fs1 =>
      if !isMarkdownFile sourcePath then
        (⟨true, none, sourcePath, targetPath, [], []⟩, fs1, idx)
      else
        match rewriteLoop sourcePath (noteTitleFromPath targetPath) idx.titleToPath fs1
            (adjustedPathsFor idx sourcePath targetPath) with
        | (fs2, upd, fl, some err) =>
          (⟨false, some err, sourcePath, targetPath, upd, fl⟩, fs2, idx)
        | (fs2, upd, fl, none) =>
          match indexMany fs2 (removeFileModel idx sourcePath)
              (dedupFirst (targetPath :: adjustedPathsFor idx sourcePath targetPath)) with
          | (idx2, some err) =>
            (⟨false, some err, sourcePath, targetPath, upd, fl⟩, fs2, idx2)
          | (idx2, none) =>
            (⟨true, none, sourcePath, targetPath, upd, fl⟩, fs2, rebuildDerived idx2)

/-! ## Quick switch (`searchNotes`) -/

/-- One scored candidate of source `searchNotes`. -/
structure ScoredEntry where
  entry : NoteIndexEntry
  titleScore : Score
  pathScore : Score
  score : Score
deriving Repr, DecidableEq

/-- One returned quick-switch item. -/
structure QuickSwitchItem where
  path : String
  title : String
  displayPath : String
  score : Score
deriving Repr, DecidableEq

/-- The source comparator of `searchNotes` as a ≤-relation (`comparator
value ≤ 0`): title-tier first; within the title tier higher title score
first; then higher path score; then title ascending. -/
def qsLeB (a b : ScoredEntry) : Bool :=
  if (scorePos a.titleScore ≠ scorePos b.titleScore : Prop) then scorePos a.titleScore
  else if scorePos a.titleScore && scorePos b.titleScore
      && !scoreEq a.titleScore b.titleScore then
    scoreLt b.titleScore a.titleScore
  else if !scoreEq a.pathScore b.pathScore then scoreLt b.pathScore a.pathScore
  else strLe a.entry.title b.entry.title

/-- Propositional form of `qsLeB`. -/
def qsLe (a b : ScoredEntry) : Prop := qsLeB a b = true

instance : DecidableRel qsLe := fun a b => by
  unfold qsLe; infer_instance

/-- Well-formedness of a scored candidate: positive denominators (true of
everything `fuzzyScore` produces). -/
def WFScored (se : ScoredEntry) : Prop :=
  0 < se.titleScore.den ∧ 0 < se.pathScore.den

/-- The lexicographic reading of the quick-switch comparator: higher title
score first, then higher path score, then title ascending. -/
def qsLex (a b : ScoredEntry) : Prop :=
  scoreLt b.titleScore a.titleScore = true
  ∨ (scoreEq a.titleScore b.titleScore = true
      ∧ (scoreLt b.pathScore a.pathScore = true
        ∨ (scoreEq a.pathScore b.pathScore = true
            ∧ strLe a.entry.title b.entry.title = true)))

/-- The scored-and-filtered candidate list of `searchNotes`. -/
def searchScored (st : IndexState) (normalized : String) : List ScoredEntry :=
  (st.notes.map (fun e =>
    { entry := e,
      titleScore := fuzzyScore normalized e.lowerTitle,
      pathScore := fuzzyScore normalized e.lowerPath,
      score := scoreMax (fuzzyScore normalized e.lowerTitle)
        (fuzzyScore normalized e.lowerPath) : ScoredEntry })).filter
    (fun se => scorePos se.score)

/-- The sorted candidate list of `searchNotes` (JS stable sort modelled by
stable insertion sort). -/
def searchSorted (st : IndexState) (normalized : String) : List ScoredEntry :=
  List.insertionSort qsLe (searchScored st normalized)

/-- Source `searchNotes`: empty normalized query short-circuits; otherwise
the top 50 sorted candidates plus the exact-title-match flag. -/
def searchNotesModel (st : IndexState) (query : String) : List QuickSwitchItem × Bool :=
  let normalized := normalizeTitle query
  if normalized.data = [] then ([], false)
  else
    ((((searchSorted st normalized).take 50).map (fun it =>
        { path := it.entry.path, title := it.entry.title,
          displayPath := relativePath st.vaultPath it.entry.path,
          score := it.score })),
      st.notes.any (fun e => e.lowerTitle = normalized))

/-- What "this file's processing throws" means for the rewrite loop: the
read fails, or the content changed and the write fails. -/
def rewriteStepFails (sp nt : String) (snap : List (String × String)) (fs : FS)
    (p : String) : Prop :=
  fsLookup fs p = none
  ∨ (∃ content, fsLookup fs p = some content
      ∧ updateWikiLinksInContent content sp nt snap ≠ content
      ∧ writeFileFS fs p (updateWikiLinksInContent content sp nt snap) = none)

/-! ## Registry invariants (for the Title Resolver claim) -/

/-- Structural well-formedness of the registry maps: no duplicate note
paths, no duplicate title keys, and — the amended claim's proviso — no two
registered notes share a normalized title. -/
def RegistryWF (st : IndexState) : Prop :=
  (st.notes.map NoteIndexEntry.path).Nodup
  ∧ (st.titleToPath.map Prod.fst).Nodup
  ∧ (st.notes.map NoteIndexEntry.lowerTitle).Nodup

instance (st : IndexState) : Decidable (RegistryWF st) := by
  unfold RegistryWF; infer_instance

/-- The Title Resolver invariant of the spec, read over the state's own
entries: every mapping belongs to a registered note (keyed by its own
normalized title), and every registered note is found under its normalized
title. -/
def TitleInv (st : IndexState) : Prop :=
  (∀ kv ∈ st.titleToPath, ∃ e ∈ st.notes, e.path = kv.2 ∧ e.lowerTitle = kv.1)
  ∧ (∀ e ∈ st.notes, mapGet st.titleToPath e.lowerTitle = some e.path)

instance (st : IndexState) : Decidable (TitleInv st) := by
  unfold TitleInv; infer_instance

/-! ## Example vaults (used by witnesses and counterexamples) -/

/-- An empty index over the vault root `/v`. -/
def emptyIndex : IndexState := ⟨"/v", [], [], [], []⟩

/-- Vault of the spec's rename scenario: `A.md` links to `B` twice. -/
def fsScenA : FS :=
  ⟨[("/v/A.md", "See [[B]] and [[B|nickname]]"), ("/v/B.md", "hi")], [], false⟩

/-- Index built over `fsScenA`. -/
def idxScenA : IndexState :=
  (buildModel "/v" fsScenA ["/v/A.md", "/v/B.md"]).getD emptyIndex

/-- Vault of the round-trip counterexample: the link to note `B` is written
in lowercase. -/
def fsRound : FS := ⟨[("/v/B.md", "hi"), ("/v/X.md", "See [[b]]")], [], false⟩

/-- Index built over `fsRound`. -/
def idxRound : IndexState :=
  (buildModel "/v" fsRound ["/v/B.md", "/v/X.md"]).getD emptyIndex

/-- First rename of the round trip: `B.md` → `C.md`. -/
def roundTrip1 : RenameApplyResult × FS × IndexState :=
  applyRenameModel false "0" fsRound idxRound "/v/B.md" "/v/C.md"

/-- Second rename of the round trip: `C.md` → `B.md`. -/
def roundTrip2 : RenameApplyResult × FS × IndexState :=
  applyRenameModel false "0" roundTrip1.2.1 roundTrip1.2.2 "/v/C.md" "/v/B.md"

/-- Vault with two notes sharing the normalized title `a`. -/
def fsDup : FS := ⟨[("/v/a.md", "x"), ("/v/sub/a.md", "y")], [], false⟩

/-- State after indexing both same-title notes (`indexOne` twice). -/
def idxDup : IndexState :=
  ((indexFileModel fsDup emptyIndex "/v/a.md" true).bind
    (fun st => indexFileModel fsDup st "/v/sub/a.md" true)).getD emptyIndex

/-- State after removing the first (losing) note. -/
def idxDupRemoved : IndexState := removeFileModel idxDup "/v/a.md"

/-- Vault of the quick-switch tie counterexample: titles `ab` and `ax` tie on
title score for the query `a`, but their path scores differ. -/
def fsTie : FS := ⟨[("/v/z/ab.md", ""), ("/v/ax.md", "")], [], false⟩

/-- Index built over `fsTie`. -/
def idxTie : IndexState :=
  (buildModel "/v" fsTie ["/v/z/ab.md", "/v/ax.md"]).getD emptyIndex

/-- Vault of the partial-failure scenario: writes to `Q.md` throw. -/
def fsFail : FS :=
  ⟨[("/v/B.md", "hi"), ("/v/P.md", "[[b]] one"), ("/v/Q.md", "[[b]] two")],
    ["/v/Q.md"], false⟩

/-- Index built over `fsFail`. -/
def idxFail : IndexState :=
  (buildModel "/v" fsFail ["/v/B.md", "/v/P.md", "/v/Q.md"]).getD emptyIndex

/-- The file system of the partial-failure scenario after the move
`B.md → C.md`. -/
def fsFailMoved : FS :=
  (renamePathSafeModel false "0" fsFail "/v/B.md" "/v/C.md").getD ⟨[], [], false⟩

/-- Vault of the conflict scenario: `E.md` and its case variant both exist on
a case-sensitive file system. -/
def fsConf : FS := ⟨[("/v/E.md", "x"), ("/v/e.md", "y")], [], false⟩

/-- Index built over `fsConf`. -/
def idxConf : IndexState :=
  (buildModel "/v" fsConf ["/v/E.md", "/v/e.md"]).getD emptyIndex

/-- Vault of the tag-summary scenario: `D.md` carries one fenced and one
unfenced tag. -/
def fsTags : FS :=
  ⟨[("/v/D.md", "```\n#project/alpha\n```\n#project/beta")], [], false⟩

/-- Index built over `fsTags`. -/
def idxTags : IndexState := (buildModel "/v" fsTags ["/v/D.md"]).getD emptyIndex

end VaultEngine

namespace VaultEngine

/-! ## Theorems -/

theorem charsLe_total : ∀ a b : List Char, charsLe a b = true ∨ charsLe b a = true := by
  intro a
  induction a with
  | nil => intro b; left; rfl
  | cons x xs ih =>
    intro b
    cases b with
    | nil => right; rfl
    | cons y ys =>
      by_cases hxy : x = y
      · subst hxy
        rcases ih ys with h | h
        · left; simpa [charsLe] using h
        · right; simpa [charsLe] using h
      · rcases lt_or_gt_of_ne (show x ≠ y from hxy) with h | h
        · left; simp [charsLe, hxy, h]
        · right
          have hyx : y ≠ x := fun hc => hxy hc.symm
          simp [charsLe, hyx, h, not_lt_of_gt h]

theorem charsLe_trans : ∀ a b c : List Char,
    charsLe a b = true → charsLe b c = true → charsLe a c = true := by
  intro a
  induction a with
  | nil => intro b c _ _; rfl
  | cons x xs ih =>
    intro b c hab hbc
    cases b with
    | nil => simp [charsLe] at hab
    | cons y ys =>
      cases c with
      | nil => simp [charsLe] at hbc
      | cons z zs =>
        by_cases hxy : x = y <;> by_cases hyz : y = z
        · subst hxy; subst hyz
          simp only [charsLe, if_pos rfl] at hab hbc ⊢
          exact ih ys zs hab hbc
        · subst hxy
          simp only [charsLe, if_pos rfl] at hab
          simpa [charsLe, hyz] using hbc
        · subst hyz
          simpa [charsLe, hxy] using hab
        · simp only [charsLe, if_neg hxy] at hab
          simp only [charsLe, if_neg hyz] at hbc
          have hxz : x < z := lt_trans (of_decide_eq_true hab) (of_decide_eq_true hbc)
          have hne : x ≠ z := ne_of_lt hxz
          simp [charsLe, hne, hxz]

theorem findFrom_spec {c : Char} : ∀ {t : List Char} {j : Nat},
    findFrom c t = some j →
    j < t.length ∧ t.drop j = c :: t.drop (j + 1) ∧ ∀ i < j, t.get? i ≠ some c := by
  intro t
  induction t with
  | nil => intro j h; simp [findFrom] at h
  | cons d t ih =>
    intro j h
    by_cases hd : d = c
    · subst hd
      simp [findFrom] at h
      subst h
      refine ⟨Nat.succ_pos _, by simp, ?_⟩
      intro i hi; omega
    · simp only [findFrom, if_neg hd, Option.map_eq_some'] at h
      obtain ⟨j0, hj0, rfl⟩ := h
      obtain ⟨h1, h2, h3⟩ := ih hj0
      refine ⟨by simpa using Nat.succ_lt_succ h1, by simpa using h2, ?_⟩
      intro i hi
      cases i with
      | zero => simpa using hd
      | succ i => simpa using h3 i (by omega)

theorem findFrom_eq_none {c : Char} : ∀ {t : List Char},
    findFrom c t = none → c ∉ t := by
  intro t
  induction t with
  | nil => intro _; simp
  | cons d t ih =>
    intro h
    by_cases hd : d = c
    · subst hd; simp [findFrom] at h
    · simp only [findFrom, if_neg hd, Option.map_eq_none'] at h
      simp only [List.mem_cons, not_or]
      exact ⟨fun hc => hd hc.symm, ih h⟩

/-- If the greedy scan succeeds, the query is a subsequence of the searched
suffix, and the points are at least one per query character. -/
theorem fuzzyPoints_sublist {t : List Char} : ∀ {q : List Char} {start pts : Nat},
    fuzzyPoints t q start = some pts →
    List.Sublist q (t.drop start) ∧ q.length ≤ pts := by
  intro q
  induction q with
  | nil =>
    intro start pts h
    simp [fuzzyPoints] at h
    simp [← h, List.nil_sublist]
  | cons c q ih =>
    intro start pts h
    simp only [fuzzyPoints] at h
    cases hf : findFrom c (t.drop start) with
    | none => rw [hf] at h; exact absurd h (by simp)
    | some j =>
      rw [hf] at h
      simp only [Option.map_eq_some'] at h
      obtain ⟨p0, hp0, rfl⟩ := h
      obtain ⟨hrec, hlen⟩ := ih hp0
      obtain ⟨hj, hdropj, _⟩ := findFrom_spec hf
      have hdrop : t.drop (start + j + 1) = (t.drop start).drop (j + 1) := by
        rw [List.drop_drop]; ring_nf
      rw [hdrop] at hrec
      constructor
      · have h1 : List.Sublist (c :: q) ((t.drop start).drop j) := by
          rw [hdropj]
          exact hrec.cons₂ c
        exact h1.trans (List.drop_sublist j (t.drop start))
      · have : 1 ≤ (if j = 0 then 2 else 1) := by split <;> omega
        simpa using Nat.add_le_add hlen this

/-- Greedy completeness: taking the first occurrence each time never misses a
subsequence.  Key step: if `c :: q` embeds into `l` and `j` is the first
occurrence of `c` in `l`, then `q` embeds into `l.drop (j + 1)`. -/
theorem sublist_drop_of_first {c : Char} {q l : List Char} {j : Nat}
    (hsub : List.Sublist (c :: q) l) (hj : findFrom c l = some j) :
    List.Sublist q (l.drop (j + 1)) := by
  induction l generalizing j with
  | nil => cases hsub
  | cons d l ih =>
    by_cases hd : d = c
    · subst hd
      simp [findFrom] at hj
      subst hj
      simp only [List.drop_succ_cons, List.drop_zero]
      cases hsub with
      | cons _ h => exact (List.sublist_cons_self _ q).trans h
      | cons₂ _ h => exact h
    · simp only [findFrom, if_neg hd, Option.map_eq_some'] at hj
      obtain ⟨j0, hj0, rfl⟩ := hj
      have hsub' : List.Sublist (c :: q) l := by
        cases hsub with
        | cons _ h => exact h
        | cons₂ _ h => exact absurd rfl hd
      simpa using ih hsub' hj0

theorem fuzzyPoints_isSome_of_sublist {t : List Char} : ∀ {q : List Char} {start : Nat},
    List.Sublist q (t.drop start) → (fuzzyPoints t q start).isSome := by
  intro q
  induction q with
  | nil => intro start _; simp [fuzzyPoints]
  | cons c q ih =>
    intro start hsub
    have hc : c ∈ t.drop start := hsub.subset (by simp)
    cases hf : findFrom c (t.drop start) with
    | none => exact absurd hc (findFrom_eq_none hf)
    | some j =>
      have hq : List.Sublist q ((t.drop start).drop (j + 1)) :=
        sublist_drop_of_first hsub hf
      rw [List.drop_drop] at hq
      have hq' : List.Sublist q (t.drop (start + j + 1)) := by
        have e : start + (j + 1) = start + j + 1 := by omega
        rwa [e] at hq
      have := ih hq'
      simp only [fuzzyPoints, hf]
      cases hrec : fuzzyPoints t q (start + j + 1) with
      | none => rw [hrec] at this; simp at this
      | some p => simp

/-- C7 counterexample: the query "a" is a case-insensitive subsequence of the
target "A", yet `fuzzyScore` returns 0 — the source scans with raw
`indexOf`, so matching is case-sensitive (its callers pre-lowercase both
sides), refuting the claim as stated. -/
theorem fuzzyScore_case_insensitive_counterexample :
    specCaseInsensitiveSubseq "a" "A" ∧ fuzzyScore "a" "A" = scoreZero := by
  constructor
  · decide
  · rfl

/-- C7 (amended): for a nonempty query, `fuzzyScore` is positive exactly when
the query is a (case-sensitive) subsequence of the target, and zero exactly
otherwise; a successful greedy scan divides its points by
`max target.length 1`. -/
theorem fuzzyScore_subseq_iff (q t : String) (hq : q.data ≠ []) :
    (scorePos (fuzzyScore q t) = true ↔ List.Sublist q.data t.data)
    ∧ (fuzzyScore q t = scoreZero ↔ ¬ List.Sublist q.data t.data)
    ∧ (List.Sublist q.data t.data → (fuzzyScore q t).den = max t.data.length 1) := by
  have hdrop : t.data.drop 0 = t.data := List.drop_zero t.data
  cases hpts : fuzzyPoints t.data q.data 0 with
  | none =>
    have hns : ¬ List.Sublist q.data t.data := by
      intro hsub
      have := @fuzzyPoints_isSome_of_sublist t.data q.data 0 (by rwa [hdrop])
      rw [hpts] at this
      simp at this
    have hz : fuzzyScore q t = scoreZero := by
      unfold fuzzyScore
      rw [if_neg hq, hpts]
    refine ⟨?_, ?_, ?_⟩
    · rw [hz]
      constructor
      · intro h; exact absurd h (by simp [scorePos, scoreZero])
      · intro h; exact absurd h hns
    · simp [hz, hns]
    · intro h; exact absurd h hns
  | some pts =>
    obtain ⟨hsub, hlen⟩ := fuzzyPoints_sublist hpts
    rw [hdrop] at hsub
    have hpos : 0 < pts := by
      have : 1 ≤ q.data.length := by
        cases hqd : q.data with
        | nil => exact absurd hqd hq
        | cons a l => simp
      omega
    have hv : fuzzyScore q t = ⟨pts, max t.data.length 1⟩ := by
      unfold fuzzyScore
      rw [if_neg hq, hpts]
    refine ⟨?_, ?_, fun _ => by rw [hv]⟩
    · rw [hv]
      simp only [scorePos]
      constructor
      · intro _; exact hsub
      · intro _; exact decide_eq_true hpos
    · rw [hv]
      constructor
      · intro h
        have : pts = 0 := congrArg Score.num h
        omega
      · intro h; exact absurd hsub h

theorem matchBody_spec {rest t a r : List Char}
    (h : matchBody rest = some (t, a, r)) :
    rest = t ++ a ++ ']' :: ']' :: r ∧ t ≠ [] ∧ (∀ c ∈ t, targetChar c = true)
      ∧ aliasWF a := by
  unfold matchBody at h
  split at h
  · exact absurd h (by simp)
  next hne =>
    have ht1 : rest.takeWhile targetChar ≠ [] := by
      simpa [List.isEmpty_iff] using hne
    have htc : ∀ c ∈ rest.takeWhile targetChar, targetChar c = true :=
      fun c hc => List.mem_takeWhile_imp hc
    split at h
    next r2 hr2 =>
      split at h
      · exact absurd h (by simp)
      next hane =>
        have ha1 : r2.takeWhile notRBrack ≠ [] := by
          simpa [List.isEmpty_iff] using hane
        have hanr : ∀ c ∈ r2.takeWhile notRBrack, notRBrack c = true :=
          fun c hc => List.mem_takeWhile_imp hc
        split at h
        next r4 hr4 =>
          injection h with h1
          simp only [Prod.mk.injEq] at h1
          obtain ⟨ht, ha, hr⟩ := h1
          subst ht; subst ha; subst hr
          refine ⟨?_, ht1, htc, ?_⟩
          · have hsplit2 : r2 = r2.takeWhile notRBrack ++ ']' :: ']' :: r4 := by
              conv_lhs => rw [← List.takeWhile_append_dropWhile (p := notRBrack) (l := r2)]
              rw [hr4]
            calc rest = rest.takeWhile targetChar ++ rest.dropWhile targetChar :=
                  (List.takeWhile_append_dropWhile (p := targetChar) (l := rest)).symm
              _ = rest.takeWhile targetChar ++ ('|' :: r2) := by rw [hr2]
              _ = rest.takeWhile targetChar
                    ++ ('|' :: (r2.takeWhile notRBrack ++ ']' :: ']' :: r4)) := by
                  conv_lhs => rw [hsplit2]
              _ = rest.takeWhile targetChar ++ ('|' :: r2.takeWhile notRBrack)
                    ++ ']' :: ']' :: r4 := by simp
          · exact Or.inr ⟨r2.takeWhile notRBrack, rfl, ha1, hanr⟩
        · exact absurd h (by simp)
    next r4 hr4 =>
      injection h with h1
      simp only [Prod.mk.injEq] at h1
      obtain ⟨ht, ha, hr⟩ := h1
      subst ht; subst ha; subst hr
      refine ⟨?_, ht1, htc, Or.inl rfl⟩
      calc rest = rest.takeWhile targetChar ++ rest.dropWhile targetChar :=
            (List.takeWhile_append_dropWhile (p := targetChar) (l := rest)).symm
        _ = rest.takeWhile targetChar ++ ']' :: ']' :: r4 := by rw [hr4]
        _ = rest.takeWhile targetChar ++ [] ++ ']' :: ']' :: r4 := by simp
    · exact absurd h (by simp)

theorem tryMatchWiki_spec {cs : List Char} {e : Bool} {t a r : List Char}
    (h : tryMatchWiki cs = some (e, t, a, r)) :
    cs = renderTok (.link e t a) ++ r ∧ t ≠ [] ∧ (∀ c ∈ t, targetChar c = true)
      ∧ aliasWF a ∧ r.length + 5 ≤ cs.length := by
  unfold tryMatchWiki at h
  split at h
  next rest =>
    simp only [Option.map_eq_some'] at h
    obtain ⟨x, hmb, heq⟩ := h
    obtain ⟨t0, a0, r0⟩ := x
    simp only [Prod.mk.injEq] at heq
    obtain ⟨he, ht0, ha0, hr0⟩ := heq
    subst he; subst ht0; subst ha0; subst hr0
    obtain ⟨hrest, ht1, htc, hwf⟩ := matchBody_spec hmb
    have hne : 0 < t0.length := List.length_pos.mpr ht1
    subst hrest
    refine ⟨?_, ht1, htc, hwf, ?_⟩
    · simp [renderTok]
    · simp only [List.length_cons, List.length_append]
      omega
  next rest =>
    simp only [Option.map_eq_some'] at h
    obtain ⟨x, hmb, heq⟩ := h
    obtain ⟨t0, a0, r0⟩ := x
    simp only [Prod.mk.injEq] at heq
    obtain ⟨he, ht0, ha0, hr0⟩ := heq
    subst he; subst ht0; subst ha0; subst hr0
    obtain ⟨hrest, ht1, htc, hwf⟩ := matchBody_spec hmb
    have hne : 0 < t0.length := List.length_pos.mpr ht1
    subst hrest
    refine ⟨?_, ht1, htc, hwf, ?_⟩
    · simp [renderTok]
    · simp only [List.length_cons, List.length_append]
      omega
  · exact absurd h (by simp)

/-- Tokenizing and re-rendering is the identity: the token decomposition
loses nothing. -/
theorem wikiTokensGo_render : ∀ (fuel : Nat) (cs : List Char), cs.length ≤ fuel →
    renderToks (wikiTokensGo fuel cs) = cs := by
  intro fuel
  induction fuel with
  | zero =>
    intro cs h
    have : cs = [] := List.length_eq_zero.mp (Nat.le_zero.mp h)
    subst this
    rfl
  | succ fuel ih =>
    intro cs h
    cases cs with
    | nil => rfl
    | cons c rest =>
      cases htm : tryMatchWiki (c :: rest) with
      | none =>
        simp only [wikiTokensGo, htm]
        have : renderToks (.chr c :: wikiTokensGo fuel rest)
            = renderTok (.chr c) ++ renderToks (wikiTokensGo fuel rest) := rfl
        rw [this, ih rest (by simpa using Nat.le_of_succ_le_succ h)]
        rfl
      | some x =>
        obtain ⟨e, t, a, r⟩ := x
        obtain ⟨hrec, _, _, _, hlen⟩ := tryMatchWiki_spec htm
        simp only [wikiTokensGo, htm]
        have hr : r.length ≤ fuel := by
          have : (c :: rest).length ≤ fuel + 1 := h
          simp only [List.length_cons] at this
          omega
        have hstep : renderToks (.link e t a :: wikiTokensGo fuel r)
            = renderTok (.link e t a) ++ renderToks (wikiTokensGo fuel r) := rfl
        rw [hstep, ih r hr]
        exact hrec.symm

/-- The replace loop is exactly the token-wise rewrite. -/
theorem wikiReplaceGo_eq (titleMap : List (String × String)) (sourcePath newTitle : String) :
    ∀ (fuel : Nat) (cs : List Char), cs.length ≤ fuel →
    wikiReplaceGo titleMap sourcePath newTitle fuel cs
      = rewriteToks titleMap sourcePath newTitle (wikiTokensGo fuel cs) := by
  intro fuel
  induction fuel with
  | zero =>
    intro cs h
    have : cs = [] := List.length_eq_zero.mp (Nat.le_zero.mp h)
    subst this
    rfl
  | succ fuel ih =>
    intro cs h
    cases cs with
    | nil => rfl
    | cons c rest =>
      cases htm : tryMatchWiki (c :: rest) with
      | none =>
        simp only [wikiReplaceGo, wikiTokensGo, htm]
        have hstep : rewriteToks titleMap sourcePath newTitle (.chr c :: wikiTokensGo fuel rest)
            = rewriteTok titleMap sourcePath newTitle (.chr c)
              ++ rewriteToks titleMap sourcePath newTitle (wikiTokensGo fuel rest) := rfl
        rw [hstep, ← ih rest (by simpa using Nat.le_of_succ_le_succ h)]
        rfl
      | some x =>
        obtain ⟨e, t, a, r⟩ := x
        obtain ⟨_, _, _, _, hlen⟩ := tryMatchWiki_spec htm
        simp only [wikiReplaceGo, wikiTokensGo, htm]
        have hr : r.length ≤ fuel := by
          have : (c :: rest).length ≤ fuel + 1 := h
          simp only [List.length_cons] at this
          omega
        have hstep : rewriteToks titleMap sourcePath newTitle (.link e t a :: wikiTokensGo fuel r)
            = rewriteTok titleMap sourcePath newTitle (.link e t a)
              ++ rewriteToks titleMap sourcePath newTitle (wikiTokensGo fuel r) := rfl
        rw [hstep, ih r hr]

/-- C1: the output of `updateWikiLinksInContent` is the input's token
decomposition with exactly those wikilink tokens whose target resolves via
the given snapshot to `sourcePath` rewritten to carry `newTitle` as their
bracketed target (embed marker and alias segment preserved verbatim), and
every other token — plain characters and all other wikilinks — kept
byte-identical; the decomposition itself re-renders to the input, so nothing
else changes. -/
theorem updateWikiLinks_rewrites_exactly (content sourcePath newTitle : String)
    (titleMap : List (String × String)) :
    (updateWikiLinksInContent content sourcePath newTitle titleMap).data
        = rewriteToks titleMap sourcePath newTitle (wikiTokens content.data)
    ∧ renderToks (wikiTokens content.data) = content.data
    ∧ (∀ e t a, rewriteTok titleMap sourcePath newTitle (.link e t a)
          = if resolveTitle ⟨t⟩ titleMap = some sourcePath
            then (if e then ['!'] else []) ++ '[' :: '[' :: (newTitle.data ++ a ++ [']', ']'])
            else renderTok (.link e t a))
    ∧ (∀ c, rewriteTok titleMap sourcePath newTitle (.chr c) = [c]) := by
  refine ⟨?_, ?_, ?_, ?_⟩
  · exact wikiReplaceGo_eq titleMap sourcePath newTitle content.data.length content.data
      (Nat.le_refl _)
  · exact wikiTokensGo_render content.data.length content.data (Nat.le_refl _)
  · intro e t a
    simp only [rewriteTok]
    split
    · rfl
    · rfl
  · intro c
    rfl

theorem tryMatchWiki_none_head {c : Char} {s : List Char} (h1 : c ≠ '!') (h2 : c ≠ '[') :
    tryMatchWiki (c :: s) = none := by
  unfold tryMatchWiki
  split
  next rest heq =>
    exfalso
    have hc : c = '!' := by injection heq
    exact h1 hc
  next rest heq =>
    exfalso
    have hc : c = '[' := by injection heq
    exact h2 hc
  next => rfl

theorem tryMatchWiki_none_bang {d : Char} {z : List Char} (h : d ≠ '[') :
    tryMatchWiki ('!' :: d :: z) = none := by
  unfold tryMatchWiki
  split
  next heq =>
    exfalso
    injection heq with h1 h2
    injection h2 with h3
    exact h h3
  next heq =>
    exfalso
    injection heq with h1
    exact absurd h1.symm (by decide)
  next => rfl


theorem takeWhile_all_append {p : Char → Bool} {t z : List Char}
    (h : ∀ c ∈ t, p c = true) :
    List.takeWhile p (t ++ z) = t ++ List.takeWhile p z := by
  induction t with
  | nil => simp
  | cons c r ih =>
    simp only [List.cons_append, List.takeWhile_cons, h c (List.mem_cons_self _ _), if_true]
    rw [ih (fun d hd => h d (List.mem_cons_of_mem _ hd))]

theorem dropWhile_all_append {p : Char → Bool} {t z : List Char}
    (h : ∀ c ∈ t, p c = true) :
    List.dropWhile p (t ++ z) = List.dropWhile p z := by
  induction t with
  | nil => simp
  | cons c r ih =>
    simp only [List.cons_append, List.dropWhile_cons, h c (List.mem_cons_self _ _), if_true]
    exact ih (fun d hd => h d (List.mem_cons_of_mem _ hd))

theorem takeWhile_cons_neg {p : Char → Bool} {d : Char} {w : List Char}
    (h : p d = false) : List.takeWhile p (d :: w) = [] := by
  simp [List.takeWhile_cons, h]

theorem dropWhile_cons_neg {p : Char → Bool} {d : Char} {w : List Char}
    (h : p d = false) : List.dropWhile p (d :: w) = d :: w := by
  simp [List.dropWhile_cons, h]

theorem matchBody_render {t a r : List Char} (ht : t ≠ [])
    (htc : ∀ c ∈ t, targetChar c = true) (hwf : aliasWF a) :
    matchBody (t ++ a ++ ']' :: ']' :: r) = some (t, a, r) := by
  rcases hwf with rfl | ⟨arun, rfl, hne, hnr⟩
  · have htw : List.takeWhile targetChar (t ++ [] ++ ']' :: ']' :: r) = t := by
      simp only [List.append_nil]
      rw [takeWhile_all_append htc, @takeWhile_cons_neg targetChar ']' (']' :: r) (by decide), List.append_nil]
    have hdw : List.dropWhile targetChar (t ++ [] ++ ']' :: ']' :: r) = ']' :: ']' :: r := by
      simp only [List.append_nil]
      rw [dropWhile_all_append htc, @dropWhile_cons_neg targetChar ']' (']' :: r) (by decide)]
    unfold matchBody
    rw [htw, hdw]
    simp [List.isEmpty_iff, ht]
  · have htw : List.takeWhile targetChar (t ++ ('|' :: arun) ++ ']' :: ']' :: r) = t := by
      rw [List.append_assoc, takeWhile_all_append htc, List.cons_append,
        @takeWhile_cons_neg targetChar '|' (arun ++ ']' :: ']' :: r) (by decide), List.append_nil]
    have hdw : List.dropWhile targetChar (t ++ ('|' :: arun) ++ ']' :: ']' :: r)
        = '|' :: (arun ++ ']' :: ']' :: r) := by
      rw [List.append_assoc, dropWhile_all_append htc, List.cons_append,
        @dropWhile_cons_neg targetChar '|' (arun ++ ']' :: ']' :: r) (by decide)]
    have htw2 : List.takeWhile notRBrack (arun ++ ']' :: ']' :: r) = arun := by
      rw [takeWhile_all_append hnr, @takeWhile_cons_neg notRBrack ']' (']' :: r) (by decide), List.append_nil]
    have hdw2 : List.dropWhile notRBrack (arun ++ ']' :: ']' :: r) = ']' :: ']' :: r := by
      rw [dropWhile_all_append hnr, @dropWhile_cons_neg notRBrack ']' (']' :: r) (by decide)]
    unfold matchBody
    rw [htw, hdw]
    simp only [List.isEmpty_iff, ht, if_false]
    rw [htw2, hdw2]
    simp [List.isEmpty_iff, hne]

theorem tryMatchWiki_of_render {e : Bool} {t a r : List Char} (ht : t ≠ [])
    (htc : ∀ c ∈ t, targetChar c = true) (hwf : aliasWF a) :
    tryMatchWiki (renderTok (.link e t a) ++ r) = some (e, t, a, r) := by
  cases e with
  | true =>
    have hform : renderTok (.link true t a) ++ r
        = '!' :: '[' :: '[' :: (t ++ a ++ ']' :: ']' :: r) := by
      simp [renderTok]
    rw [hform]
    unfold tryMatchWiki
    split
    next rest heq =>
      have hr : rest = t ++ a ++ ']' :: ']' :: r := by
        injection heq with h1 h2
        injection h2 with h3 h4
        injection h4 with h5 h6
        exact h6.symm
      rw [hr, matchBody_render ht htc hwf]
      rfl
    next rest heq =>
      exfalso
      have : ('!' : Char) = '[' := by injection heq
      exact absurd this (by decide)
    next hno1 hno2 =>
      exact absurd rfl (hno1 _)
  | false =>
    have hform : renderTok (.link false t a) ++ r
        = '[' :: '[' :: (t ++ a ++ ']' :: ']' :: r) := by
      simp [renderTok]
    rw [hform]
    unfold tryMatchWiki
    split
    next rest heq =>
      exfalso
      have : ('[' : Char) = '!' := by injection heq
      exact absurd this (by decide)
    next rest heq =>
      have hr : rest = t ++ a ++ ']' :: ']' :: r := by
        injection heq with h1 h2
        injection h2 with h3 h4
        exact h4.symm
      rw [hr, matchBody_render ht htc hwf]
      rfl
    next hno1 hno2 =>
      exact absurd rfl (hno2 _)


theorem wikiTokensGo_fuel : ∀ (f g : Nat) (cs : List Char), cs.length ≤ f →
    cs.length ≤ g → wikiTokensGo f cs = wikiTokensGo g cs := by
  intro f
  induction f with
  | zero =>
    intro g cs hf hg
    have : cs = [] := List.length_eq_zero.mp (Nat.le_zero.mp hf)
    subst this
    cases g <;> rfl
  | succ f ih =>
    intro g cs hf hg
    cases cs with
    | nil => cases g <;> rfl
    | cons c rest =>
      cases g with
      | zero => exact absurd hg (by simp)
      | succ g =>
        cases htm : tryMatchWiki (c :: rest) with
        | none =>
          simp only [wikiTokensGo, htm]
          rw [ih g rest (by simpa using Nat.le_of_succ_le_succ hf)
            (by simpa using Nat.le_of_succ_le_succ hg)]
        | some x =>
          obtain ⟨e, t, a, r⟩ := x
          obtain ⟨hrec, _, _, _, hlen⟩ := tryMatchWiki_spec htm
          simp only [wikiTokensGo, htm]
          have hr : r.length ≤ f := by
            simp only [List.length_cons] at hlen hf
            omega
          have hr2 : r.length ≤ g := by
            simp only [List.length_cons] at hlen hg
            omega
          rw [ih g r hr hr2]

theorem wikiTokens_cons_of_match {cs : List Char} {e : Bool} {t a r : List Char}
    (h : tryMatchWiki cs = some (e, t, a, r)) :
    wikiTokens cs = .link e t a :: wikiTokens r := by
  obtain ⟨hrec, _, _, _, hlen⟩ := tryMatchWiki_spec h
  cases cs with
  | nil => simp at hlen
  | cons c rest =>
    have hf : r.length ≤ rest.length := by
      simp only [List.length_cons] at hlen
      omega
    show wikiTokensGo (rest.length + 1) (c :: rest) = _
    simp only [wikiTokensGo, h]
    rw [wikiTokensGo_fuel rest.length r.length r hf (Nat.le_refl _)]
    rfl

theorem wikiTokens_cons_of_none {c : Char} {cs : List Char}
    (h : tryMatchWiki (c :: cs) = none) :
    wikiTokens (c :: cs) = .chr c :: wikiTokens cs := by
  show wikiTokensGo (cs.length + 1) (c :: cs) = _
  simp only [wikiTokensGo, h]
  rfl

theorem wikiTokens_linkWF : ∀ (fuel : Nat) (cs : List Char),
    ∀ tok ∈ wikiTokensGo fuel cs, linkWF tok := by
  intro fuel
  induction fuel with
  | zero => intro cs tok h; exact absurd h (by simp [wikiTokensGo])
  | succ fuel ih =>
    intro cs tok h
    cases cs with
    | nil => exact absurd h (by simp [wikiTokensGo])
    | cons c rest =>
      cases htm : tryMatchWiki (c :: rest) with
      | none =>
        rw [wikiTokensGo, htm] at h
        rcases List.mem_cons.mp h with rfl | h2
        · trivial
        · exact ih rest tok h2
      | some x =>
        obtain ⟨e, t, a, r⟩ := x
        obtain ⟨_, ht, htc, hwf, _⟩ := tryMatchWiki_spec htm
        rw [wikiTokensGo, htm] at h
        rcases List.mem_cons.mp h with rfl | h2
        · exact ⟨ht, htc, hwf⟩
        · exact ih r tok h2

theorem rewriteToks_eq_render_map (m : List (String × String)) (sp nt : String)
    (toks : List WTok) :
    rewriteToks m sp nt toks = renderToks (toks.map (substTok m sp nt)) := by
  induction toks with
  | nil => rfl
  | cons tok rest ih =>
    show rewriteTok m sp nt tok ++ rewriteToks m sp nt rest
      = renderTok (substTok m sp nt tok) ++ renderToks (rest.map (substTok m sp nt))
    rw [ih]
    congr 1
    cases tok with
    | chr c => rfl
    | link e t a =>
      simp only [rewriteTok, substTok]
      split
      · rfl
      · rfl


theorem retokenize_subst (m1 : List (String × String)) (sp newT : String)
    (hT : newT.data ≠ []) (hTc : ∀ c ∈ newT.data, targetChar c = true) :
    ∀ (n : Nat) (cs : List Char), cs.length ≤ n →
    (∀ tok ∈ wikiTokens cs, chrNotLBrack tok) →
    wikiTokens (renderToks ((wikiTokens cs).map (substTok m1 sp newT)))
      = (wikiTokens cs).map (substTok m1 sp newT) := by
  intro n
  induction n with
  | zero =>
    intro cs h _
    have : cs = [] := List.length_eq_zero.mp (Nat.le_zero.mp h)
    subst this
    rfl
  | succ n ih =>
    intro cs hlen hnb
    cases cs with
    | nil => rfl
    | cons c rest =>
      cases htm : tryMatchWiki (c :: rest) with
      | some x =>
        obtain ⟨e, t, a, r⟩ := x
        obtain ⟨hrec, ht, htc, hwf, hl5⟩ := tryMatchWiki_spec htm
        rw [wikiTokens_cons_of_match htm] at hnb ⊢
        have hr : r.length ≤ n := by
          simp only [List.length_cons] at hl5 hlen
          omega
        have hnb2 : ∀ tok ∈ wikiTokens r, chrNotLBrack tok :=
          fun tok htk => hnb tok (List.mem_cons_of_mem _ htk)
        simp only [List.map_cons]
        by_cases hres : resolveTitle ⟨t⟩ m1 = some sp
        · rw [show substTok m1 sp newT (.link e t a) = .link e newT.data a by
            simp [substTok, hres]]
          rw [show renderToks (WTok.link e newT.data a
                :: (wikiTokens r).map (substTok m1 sp newT))
              = renderTok (.link e newT.data a)
                ++ renderToks ((wikiTokens r).map (substTok m1 sp newT)) from rfl]
          rw [wikiTokens_cons_of_match (tryMatchWiki_of_render hT hTc hwf)]
          rw [ih r hr hnb2]
        · rw [show substTok m1 sp newT (.link e t a) = .link e t a by
            simp [substTok, hres]]
          rw [show renderToks (WTok.link e t a
                :: (wikiTokens r).map (substTok m1 sp newT))
              = renderTok (.link e t a)
                ++ renderToks ((wikiTokens r).map (substTok m1 sp newT)) from rfl]
          rw [wikiTokens_cons_of_match (tryMatchWiki_of_render ht htc hwf)]
          rw [ih r hr hnb2]
      | none =>
        rw [wikiTokens_cons_of_none htm] at hnb ⊢
        have hrl : rest.length ≤ n := by
          simp only [List.length_cons] at hlen
          omega
        have hnb2 : ∀ tok ∈ wikiTokens rest, chrNotLBrack tok :=
          fun tok htk => hnb tok (List.mem_cons_of_mem _ htk)
        have hcnl : c ≠ '[' := hnb (.chr c) (List.mem_cons_self _ _)
        simp only [List.map_cons]
        rw [show renderToks (substTok m1 sp newT (.chr c)
              :: (wikiTokens rest).map (substTok m1 sp newT))
            = c :: renderToks ((wikiTokens rest).map (substTok m1 sp newT)) from rfl]
        have hnone : tryMatchWiki
            (c :: renderToks ((wikiTokens rest).map (substTok m1 sp newT))) = none := by
          by_cases hbang : c = '!'
          · subst hbang
            cases hts : wikiTokens rest with
            | nil => rfl
            | cons tok ts2 =>
              cases tok with
              | chr d =>
                have hd : d ≠ '[' := hnb2 (.chr d) (by
                  rw [hts]
                  exact List.mem_cons_self _ _)
                simp only [List.map_cons]
                show tryMatchWiki
                  ('!' :: d :: renderToks (ts2.map (substTok m1 sp newT))) = none
                exact tryMatchWiki_none_bang hd
              | link e2 t2 a2 =>
                cases e2 with
                | true =>
                  simp only [List.map_cons]
                  have hform : ∃ w, renderToks (substTok m1 sp newT (.link true t2 a2)
                      :: ts2.map (substTok m1 sp newT)) = '!' :: w := by
                    simp only [substTok]
                    split
                    · exact ⟨_, rfl⟩
                    · exact ⟨_, rfl⟩
                  obtain ⟨w, hw⟩ := hform
                  rw [hw]
                  exact tryMatchWiki_none_bang (by decide)
                | false =>
                  exfalso
                  have hwfl : linkWF (.link false t2 a2) :=
                    wikiTokens_linkWF rest.length rest _ (by
                      rw [show wikiTokensGo rest.length rest = wikiTokens rest from rfl, hts]
                      exact List.mem_cons_self _ _)
                  obtain ⟨ht2, htc2, hwf2⟩ := hwfl
                  have hrest : rest = renderTok (.link false t2 a2) ++ renderToks ts2 := by
                    conv_lhs => rw [← wikiTokensGo_render rest.length rest (Nat.le_refl _)]
                    rw [show wikiTokensGo rest.length rest = wikiTokens rest from rfl, hts]
                    rfl
                  have hgood : tryMatchWiki ('!' :: rest)
                      = some (true, t2, a2, renderToks ts2) := by
                    rw [show ('!' :: rest : List Char)
                        = renderTok (.link true t2 a2) ++ renderToks ts2 by
                      rw [hrest]
                      rfl]
                    exact tryMatchWiki_of_render ht2 htc2 hwf2
                  rw [htm] at hgood
                  exact absurd hgood (by simp)
          · exact tryMatchWiki_none_head hbang hcnl
        rw [wikiTokens_cons_of_none hnone]
        rw [ih rest hrl hnb2]
        rfl


theorem map_id_of_mem {α : Type} {f : α → α} : ∀ {l : List α},
    (∀ x ∈ l, f x = x) → l.map f = l := by
  intro l
  induction l with
  | nil => intro _; rfl
  | cons x r ih =>
    intro h
    simp only [List.map_cons]
    rw [h x (List.mem_cons_self _ _), ih (fun y hy => h y (List.mem_cons_of_mem _ hy))]

/-- C4 counterexample: in the vault where `X.md` reads `See [[b]]` (a
case-variant spelling of note `B`), renaming `B.md` to `C.md` and back —
both renames succeeding and affecting `X.md` — leaves `X.md` reading
`See [[B]]`, not its original bytes. -/
theorem renameRoundTrip_counterexample :
    roundTrip1.1.ok = true ∧ roundTrip2.1.ok = true
    ∧ roundTrip1.1.updatedFiles = ["/v/X.md"]
    ∧ roundTrip2.1.updatedFiles = ["/v/X.md"]
    ∧ fsLookup fsRound "/v/X.md" = some "See [[b]]"
    ∧ fsLookup roundTrip2.2.1 "/v/X.md" = some "See [[B]]"
    ∧ ("See [[B]]" : String) ≠ "See [[b]]" :=
  ⟨by decide, by decide, by decide, by decide, by decide, by decide, by decide⟩

/-- C4 (amended): a rewrite to `newTitle` followed by a rewrite back to
`oldTitle` restores the content byte for byte, provided every link affected
by the first pass was written exactly as `oldTitle` (the code substitutes the
resolver's stored title, so a case-variant spelling is lost), the new title
is a nonempty bracket-and-bar-free string, the second snapshot resolves it to
the renamed path, unaffected links do not resolve to that path, and stray
`[` characters occur only inside wikilinks. -/
theorem updateWikiLinks_roundTrip (content sp newT tp oldT : String)
    (m1 m2 : List (String × String))
    (hT : newT.data ≠ []) (hTc : ∀ c ∈ newT.data, targetChar c = true)
    (hnb : ∀ tok ∈ wikiTokens content.data, chrNotLBrack tok)
    (hex : ∀ tok ∈ wikiTokens content.data, affectedExact m1 sp oldT tok)
    (hres : resolveTitle newT m2 = some tp)
    (hun : ∀ tok ∈ wikiTokens content.data, unaffectedFree m1 sp m2 tp tok) :
    updateWikiLinksInContent (updateWikiLinksInContent content sp newT m1) tp oldT m2
      = content := by
  have h1 : (updateWikiLinksInContent content sp newT m1).data
      = renderToks ((wikiTokens content.data).map (substTok m1 sp newT)) := by
    show wikiReplaceGo m1 sp newT content.data.length content.data = _
    rw [wikiReplaceGo_eq m1 sp newT content.data.length content.data (Nat.le_refl _)]
    exact rewriteToks_eq_render_map m1 sp newT (wikiTokens content.data)
  have h2 : wikiTokens ((updateWikiLinksInContent content sp newT m1).data)
      = (wikiTokens content.data).map (substTok m1 sp newT) := by
    rw [h1]
    exact retokenize_subst m1 sp newT hT hTc content.data.length content.data
      (Nat.le_refl _) hnb
  have h3 : (updateWikiLinksInContent (updateWikiLinksInContent content sp newT m1)
        tp oldT m2).data
      = renderToks (((wikiTokens content.data).map (substTok m1 sp newT)).map
          (substTok m2 tp oldT)) := by
    show wikiReplaceGo m2 tp oldT _ _ = _
    rw [wikiReplaceGo_eq m2 tp oldT _ _ (Nat.le_refl _)]
    rw [show wikiTokensGo (updateWikiLinksInContent content sp newT m1).data.length
        (updateWikiLinksInContent content sp newT m1).data
        = wikiTokens ((updateWikiLinksInContent content sp newT m1).data) from rfl]
    rw [h2]
    exact rewriteToks_eq_render_map m2 tp oldT _
  have h4 : ((wikiTokens content.data).map (substTok m1 sp newT)).map (substTok m2 tp oldT)
      = wikiTokens content.data := by
    rw [List.map_map]
    refine map_id_of_mem ?_
    intro tok htk
    cases tok with
    | chr c => rfl
    | link e t a =>
      simp only [Function.comp_apply, substTok]
      by_cases hr : resolveTitle ⟨t⟩ m1 = some sp
      · rw [if_pos hr]
        have hx : t = oldT.data := (hex _ htk) hr
        simp only [substTok]
        rw [if_pos (show resolveTitle ⟨newT.data⟩ m2 = some tp from hres), hx]
      · rw [if_neg hr]
        simp only [substTok]
        rw [if_neg ((hun _ htk) hr)]
  have hdata : (updateWikiLinksInContent (updateWikiLinksInContent content sp newT m1)
        tp oldT m2).data = content.data := by
    rw [h3, h4]
    exact wikiTokensGo_render _ _ (Nat.le_refl _)
  exact congrArg String.mk hdata

/-- Witness for `updateWikiLinks_roundTrip`: the round trip over
`See [[b]]` with matching spelling is the identity. -/
theorem updateWikiLinks_roundTrip_witness :
    (("C" : String).data ≠ [] ∧ (∀ c ∈ ("C" : String).data, targetChar c = true)
      ∧ (∀ tok ∈ wikiTokens ("See [[b]]" : String).data, chrNotLBrack tok)
      ∧ (∀ tok ∈ wikiTokens ("See [[b]]" : String).data,
          affectedExact [("b", "/v/B.md")] "/v/B.md" "b" tok)
      ∧ resolveTitle "C" [("c", "/v/C.md")] = some "/v/C.md"
      ∧ (∀ tok ∈ wikiTokens ("See [[b]]" : String).data,
          unaffectedFree [("b", "/v/B.md")] "/v/B.md" [("c", "/v/C.md")] "/v/C.md" tok))
    ∧ updateWikiLinksInContent
        (updateWikiLinksInContent "See [[b]]" "/v/B.md" "C" [("b", "/v/B.md")])
        "/v/C.md" "b" [("c", "/v/C.md")] = "See [[b]]" :=
  ⟨⟨by decide, by decide, by decide, by decide, by decide, by decide⟩,
    updateWikiLinks_roundTrip "See [[b]]" "/v/B.md" "C" "/v/C.md" "b"
      [("b", "/v/B.md")] [("c", "/v/C.md")]
      (by decide) (by decide) (by decide) (by decide) (by decide) (by decide)⟩

theorem toNat_ofNat_of_valid {n : Nat} (h : n.isValidChar) : (Char.ofNat n).toNat = n := by
  rw [Char.ofNat, dif_pos h]
  rfl

theorem toLower_idem (c : Char) : c.toLower.toLower = c.toLower := by
  have key : ∀ d : Char, ¬(65 ≤ d.toNat ∧ d.toNat ≤ 90) → d.toLower = d := by
    intro d hd
    unfold Char.toLower
    simp only [ge_iff_le]
    exact if_neg hd
  by_cases h : (65 ≤ c.toNat ∧ c.toNat ≤ 90)
  · have hc : c.toLower = Char.ofNat (c.toNat + 32) := by
      unfold Char.toLower
      simp only [ge_iff_le]
      exact if_pos h
    have hv : (c.toNat + 32).isValidChar := Or.inl (by omega)
    have ht : (Char.ofNat (c.toNat + 32)).toNat = c.toNat + 32 := toNat_ofNat_of_valid hv
    rw [hc]
    refine key _ ?_
    rw [ht]
    omega
  · rw [key c h, key c h]

theorem lowerStr_idem (s : String) : lowerStr (lowerStr s) = lowerStr s := by
  unfold lowerStr
  refine congrArg String.mk ?_
  show (s.data.map Char.toLower).map Char.toLower = s.data.map Char.toLower
  rw [List.map_map]
  exact List.map_congr_left (fun c _ => toLower_idem c)

/-- What `stripCodeFences` keeps: exactly the lines that are not fence
delimiters and are not inside a fenced block (per the toggle annotation). -/
theorem stripFencesGo_eq : ∀ (lines : List (List Char)) (inB : Bool),
    stripFencesGo inB lines
      = ((fenceStates inB lines).filter (fun p => !isFenceLine p.1 && !p.2)).map Prod.fst := by
  intro lines
  induction lines with
  | nil => intro inB; rfl
  | cons l rest ih =>
    intro inB
    by_cases hf : isFenceLine l
    · simp [stripFencesGo, fenceStates, hf, ih]
    · cases inB
      · simp [stripFencesGo, fenceStates, hf, ih]
      · simp [stripFencesGo, fenceStates, hf, ih]

theorem mem_dedupFirstGo {x : String} : ∀ {l seen : List String},
    x ∈ dedupFirstGo seen l ↔ x ∈ l ∧ x ∉ seen := by
  intro l
  induction l with
  | nil => intro seen; simp [dedupFirstGo]
  | cons y ys ih =>
    intro seen
    by_cases hy : y ∈ seen
    · rw [dedupFirstGo, if_pos hy, ih]
      constructor
      · rintro ⟨hx, hs⟩
        exact ⟨List.mem_cons_of_mem y hx, hs⟩
      · rintro ⟨hx, hs⟩
        rcases List.mem_cons.mp hx with rfl | hx2
        · exact absurd hy hs
        · exact ⟨hx2, hs⟩
    · rw [dedupFirstGo, if_neg hy]
      simp only [List.mem_cons, ih, List.mem_cons]
      constructor
      · rintro (rfl | ⟨hx, hs⟩)
        · exact ⟨Or.inl rfl, hy⟩
        · refine ⟨Or.inr hx, fun hc => hs (Or.inr hc)⟩
      · rintro ⟨rfl | hx, hs⟩
        · exact Or.inl rfl
        · by_cases hxy : x = y
          · exact Or.inl hxy
          · refine Or.inr ⟨hx, ?_⟩
            intro hc
            rcases hc with h1 | h2
            · exact hxy h1
            · exact hs h2

theorem nodup_dedupFirstGo : ∀ (l seen : List String), (dedupFirstGo seen l).Nodup := by
  intro l
  induction l with
  | nil => intro seen; simp [dedupFirstGo]
  | cons y ys ih =>
    intro seen
    by_cases hy : y ∈ seen
    · rw [dedupFirstGo, if_pos hy]
      exact ih seen
    · rw [dedupFirstGo, if_neg hy]
      refine List.nodup_cons.mpr ⟨?_, ih (y :: seen)⟩
      intro hc
      exact (mem_dedupFirstGo.mp hc).2 (List.mem_cons_self y seen)

/-- Membership, order, duplication and case facts about `parseTags`. -/
theorem parseTags_facts (content : String) :
    List.Sorted strLeRel (parseTags content)
    ∧ (parseTags content).Nodup
    ∧ (∀ tg ∈ parseTags content, lowerStr tg = tg)
    ∧ (∀ tg, tg ∈ parseTags content ↔
        ∃ line ∈ stripCodeFences content, ∃ raw ∈ tagsInLine line, lowerStr raw = tg) := by
  have htot : IsTotal String strLeRel := ⟨fun a b => charsLe_total a.data b.data⟩
  have htr : IsTrans String strLeRel := ⟨fun a b c => charsLe_trans a.data b.data c.data⟩
  have hperm : List.Perm (parseTags content)
      (dedupFirst ((stripCodeFences content).flatMap (fun l => (tagsInLine l).map lowerStr))) :=
    List.perm_insertionSort _ _
  have hmem : ∀ tg, tg ∈ parseTags content ↔
      ∃ line ∈ stripCodeFences content, ∃ raw ∈ tagsInLine line, lowerStr raw = tg := by
    intro tg
    rw [hperm.mem_iff]
    unfold dedupFirst
    rw [mem_dedupFirstGo]
    simp [List.mem_flatMap, List.mem_map]
  refine ⟨?_, ?_, ?_, hmem⟩
  · exact @List.sorted_insertionSort String strLeRel _ htot htr _
  · exact hperm.nodup_iff.mpr (nodup_dedupFirstGo _ _)
  · intro tg htg
    obtain ⟨line, _, raw, _, rfl⟩ := (hmem tg).mp htg
    exact lowerStr_idem raw

theorem multiGet_multiAdd (m : List (String × List String)) (k v key : String) :
    multiGet (multiAdd m k v) key
      = if key = k then some (setAdd ((multiGet m k).getD []) v) else multiGet m key := by
  induction m with
  | nil =>
    by_cases hk : key = k
    · subst hk
      simp [multiAdd, multiGet, setAdd]
    · have hk2 : ¬ k = key := fun h => hk h.symm
      simp [multiAdd, multiGet, hk, hk2]
  | cons kv r ih =>
    obtain ⟨k0, vs⟩ := kv
    by_cases h0 : k0 = k
    · subst h0
      by_cases hk : key = k0
      · subst hk
        simp [multiAdd, multiGet]
      · have hk2 : ¬ k0 = key := fun h => hk h.symm
        simp [multiAdd, multiGet, hk, hk2]
    · by_cases hk : k0 = key
      · subst hk
        simp [multiAdd, multiGet, h0]
      · simp [multiAdd, multiGet, h0, hk, ih]

theorem mem_setAdd {q v : String} {l : List String} :
    q ∈ setAdd l v ↔ q ∈ l ∨ q = v := by
  unfold setAdd
  by_cases hv : v ∈ l
  · rw [if_pos hv]
    constructor
    · exact Or.inl
    · rintro (h | rfl)
      · exact h
      · exact hv
  · rw [if_neg hv]
    simp

theorem multiGet_isSome_iff_mem {m : List (String × List String)} {t : String} :
    (multiGet m t).isSome ↔ ∃ vs, (t, vs) ∈ m := by
  induction m with
  | nil => simp [multiGet]
  | cons kv r ih =>
    obtain ⟨k0, vs0⟩ := kv
    by_cases hk : k0 = t
    · subst hk
      simp [multiGet]
    · rw [multiGet, if_neg hk, ih]
      constructor
      · rintro ⟨vs, hvs⟩
        exact ⟨vs, List.mem_cons_of_mem _ hvs⟩
      · rintro ⟨vs, hvs⟩
        rcases List.mem_cons.mp hvs with heq | hm
        · exact absurd (congrArg Prod.fst heq).symm hk
        · exact ⟨vs, hm⟩

theorem tagIndex_inner_fold (path t : String) : ∀ (tags : List String)
    (m : List (String × List String)),
    (multiGet (tags.foldl (fun m2 tg => multiAdd m2 tg path) m) t).isSome
      ↔ (multiGet m t).isSome ∨ t ∈ tags := by
  intro tags
  induction tags with
  | nil => intro m; simp
  | cons tg tgs ih =>
    intro m
    rw [List.foldl_cons, ih, multiGet_multiAdd]
    by_cases ht : t = tg
    · subst ht; simp
    · simp [ht, fun h => ht h]

theorem tagIndex_fold (t : String) : ∀ (notes : List NoteIndexEntry)
    (m : List (String × List String)),
    (multiGet (notes.foldl (fun m e => e.tags.foldl (fun m2 tg => multiAdd m2 tg e.path) m) m) t).isSome
      ↔ (multiGet m t).isSome ∨ ∃ e ∈ notes, t ∈ e.tags := by
  intro notes
  induction notes with
  | nil => intro m; simp
  | cons e es ih =>
    intro m
    rw [List.foldl_cons, ih, tagIndex_inner_fold]
    constructor
    · rintro ((h | h) | h)
      · exact Or.inl h
      · exact Or.inr ⟨e, List.mem_cons_self _ _, h⟩
      · obtain ⟨e2, he2, ht⟩ := h
        exact Or.inr ⟨e2, List.mem_cons_of_mem _ he2, ht⟩
    · rintro (h | ⟨e2, he2, ht⟩)
      · exact Or.inl (Or.inl h)
      · rcases List.mem_cons.mp he2 with rfl | hm
        · exact Or.inl (Or.inr ht)
        · exact Or.inr ⟨e2, hm, ht⟩

/-- C8: tag extraction is fence-aware and normalizing: `stripCodeFences`
keeps exactly the lines outside fenced blocks (and drops the fence lines
themselves); the extracted list is sorted, duplicate-free, lowercased, and
contains exactly the lowercased tag tokens of the surviving lines; and a tag
appears in `getTagSummary` exactly when some registered note carries it
outside a fence. -/
theorem tag_extraction_fence_aware (content : String) (st : IndexState) (t : String)
    (hti : st.tagIndex = rebuildTagIndexModel st.notes)
    (hnotes : ∀ e ∈ st.notes, e.tags = parseTags e.content) :
    List.Sorted strLeRel (parseTags content)
    ∧ (parseTags content).Nodup
    ∧ (∀ tg ∈ parseTags content, lowerStr tg = tg)
    ∧ (∀ tg, tg ∈ parseTags content ↔
        ∃ line ∈ stripCodeFences content, ∃ raw ∈ tagsInLine line, lowerStr raw = tg)
    ∧ stripCodeFences content
        = ((fenceStates false (splitLines content)).filter
            (fun p => !isFenceLine p.1 && !p.2)).map Prod.fst
    ∧ ((∃ n, (t, n) ∈ getTagSummaryModel st) ↔
        ∃ e ∈ st.notes, ∃ line ∈ stripCodeFences e.content,
          ∃ raw ∈ tagsInLine line, lowerStr raw = t) := by
  obtain ⟨h1, h2, h3, h4⟩ := parseTags_facts content
  refine ⟨h1, h2, h3, h4, stripFencesGo_eq _ _, ?_⟩
  have hsummem : (∃ n, (t, n) ∈ getTagSummaryModel st) ↔ (multiGet st.tagIndex t).isSome := by
    unfold getTagSummaryModel
    constructor
    · rintro ⟨n, hn⟩
      have := (List.perm_insertionSort tagSummaryLe _).mem_iff.mp hn
      obtain ⟨kv, hkv, heq⟩ := List.mem_map.mp this
      have hk : kv.1 = t := congrArg Prod.fst heq
      exact multiGet_isSome_iff_mem.mpr ⟨kv.2, by rw [← hk]; exact hkv⟩
    · intro h
      obtain ⟨vs, hvs⟩ := multiGet_isSome_iff_mem.mp h
      refine ⟨vs.length, ?_⟩
      exact (List.perm_insertionSort tagSummaryLe _).mem_iff.mpr
        (List.mem_map.mpr ⟨(t, vs), hvs, rfl⟩)
  rw [hsummem, hti]
  unfold rebuildTagIndexModel
  rw [tagIndex_fold]
  simp only [multiGet, Option.isSome_none, Bool.false_eq_true, false_or]
  constructor
  · rintro ⟨e, he, ht⟩
    rw [hnotes e he] at ht
    obtain ⟨line, hline, raw, hraw, hlow⟩ := ((parseTags_facts e.content).2.2.2 t).mp ht
    exact ⟨e, he, line, hline, raw, hraw, hlow⟩
  · rintro ⟨e, he, line, hline, raw, hraw, hlow⟩
    refine ⟨e, he, ?_⟩
    rw [hnotes e he]
    exact ((parseTags_facts e.content).2.2.2 t).mpr ⟨line, hline, raw, hraw, hlow⟩

/-- Witness for `tag_extraction_fence_aware`: the spec's `D.md` scenario — a
fenced `#project/alpha` is ignored, the unfenced `#project/beta` is
counted. -/
theorem tag_extraction_fence_aware_witness :
    (idxTags.tagIndex = rebuildTagIndexModel idxTags.notes
      ∧ (∀ e ∈ idxTags.notes, e.tags = parseTags e.content))
    ∧ ((∃ n, ("project/beta", n) ∈ getTagSummaryModel idxTags) ↔
        ∃ e ∈ idxTags.notes, ∃ line ∈ stripCodeFences e.content,
          ∃ raw ∈ tagsInLine line, lowerStr raw = "project/beta")
    ∧ getTagSummaryModel idxTags = [("project/beta", 1)] := by
  refine ⟨⟨by decide, by decide⟩, ?_, by decide⟩
  exact (tag_extraction_fence_aware
    ("```\n#project/alpha\n```\n#project/beta") idxTags "project/beta"
    (by decide) (by decide)).2.2.2.2.2

/-- Membership in a rebuilt backlink map, inner loop: one note's links. -/
theorem backlinks_inner_fold (tm : List (String × String)) (path p q : String) :
    ∀ (links : List String) (m : List (String × List String)),
    (q ∈ (multiGet (links.foldl (fun m2 l =>
        match mapGet tm l with
        | none => m2
        | some tgt => multiAdd m2 tgt path) m) p).getD []
      ↔ q ∈ (multiGet m p).getD [] ∨ (q = path ∧ ∃ l ∈ links, mapGet tm l = some p)) := by
  intro links
  induction links with
  | nil => intro m; simp
  | cons l ls ih =>
    intro m
    rw [List.foldl_cons]
    cases hres : mapGet tm l with
    | none =>
      rw [ih]
      constructor
      · rintro (h | ⟨rfl, l2, hl2, hres2⟩)
        · exact Or.inl h
        · exact Or.inr ⟨rfl, l2, List.mem_cons_of_mem _ hl2, hres2⟩
      · rintro (h | ⟨rfl, l2, hl2, hres2⟩)
        · exact Or.inl h
        · rcases List.mem_cons.mp hl2 with rfl | hm
          · rw [hres] at hres2; exact absurd hres2 (by simp)
          · exact Or.inr ⟨rfl, l2, hm, hres2⟩
    | some tgt =>
      rw [ih, multiGet_multiAdd]
      by_cases hp : p = tgt
      · subst hp
        rw [if_pos rfl]
        simp only [Option.getD_some, mem_setAdd]
        constructor
        · rintro ((h | rfl) | ⟨rfl, l2, hl2, hres2⟩)
          · exact Or.inl h
          · exact Or.inr ⟨rfl, l, List.mem_cons_self _ _, hres⟩
          · exact Or.inr ⟨rfl, l2, List.mem_cons_of_mem _ hl2, hres2⟩
        · rintro (h | ⟨rfl, l2, hl2, hres2⟩)
          · exact Or.inl (Or.inl h)
          · rcases List.mem_cons.mp hl2 with rfl | hm
            · exact Or.inl (Or.inr rfl)
            · exact Or.inr ⟨rfl, l2, hm, hres2⟩
      · rw [if_neg hp]
        constructor
        · rintro (h | ⟨rfl, l2, hl2, hres2⟩)
          · exact Or.inl h
          · exact Or.inr ⟨rfl, l2, List.mem_cons_of_mem _ hl2, hres2⟩
        · rintro (h | ⟨rfl, l2, hl2, hres2⟩)
          · exact Or.inl h
          · rcases List.mem_cons.mp hl2 with rfl | hm
            · rw [hres] at hres2
              exact absurd (Option.some.inj hres2) (fun hc => hp hc.symm)
            · exact Or.inr ⟨rfl, l2, hm, hres2⟩

/-- Membership in a rebuilt backlink map, outer loop: all notes. -/
theorem backlinks_fold (tm : List (String × String)) (p q : String) :
    ∀ (notes : List NoteIndexEntry) (m : List (String × List String)),
    (q ∈ (multiGet (notes.foldl (fun m e => e.links.foldl (fun m2 l =>
        match mapGet tm l with
        | none => m2
        | some tgt => multiAdd m2 tgt e.path) m) m) p).getD []
      ↔ q ∈ (multiGet m p).getD []
        ∨ ∃ e ∈ notes, e.path = q ∧ ∃ l ∈ e.links, mapGet tm l = some p) := by
  intro notes
  induction notes with
  | nil => intro m; simp
  | cons e es ih =>
    intro m
    rw [List.foldl_cons, ih, backlinks_inner_fold]
    constructor
    · rintro ((h | ⟨hq, hl⟩) | ⟨e2, he2, hq2, hl2⟩)
      · exact Or.inl h
      · exact Or.inr ⟨e, List.mem_cons_self _ _, hq.symm, hl⟩
      · exact Or.inr ⟨e2, List.mem_cons_of_mem _ he2, hq2, hl2⟩
    · rintro (h | ⟨e2, he2, hq2, hl2⟩)
      · exact Or.inl (Or.inl h)
      · rcases List.mem_cons.mp he2 with rfl | hm
        · exact Or.inl (Or.inr ⟨hq2.symm, hl2⟩)
        · exact Or.inr ⟨e2, hm, hq2, hl2⟩

/-- C3: in any state whose backlink map is the rebuilt one (which every
completed registry mutation establishes), `getBacklinks p` contains exactly
the registered paths `q` with some outgoing link resolving to `p` through
the current title map, and is empty (never an error) when there are none. -/
theorem getBacklinks_characterization (st : IndexState) (p : String)
    (hbl : st.backlinks = rebuildBacklinksModel st.notes st.titleToPath) :
    (∀ q, q ∈ getBacklinksModel st p ↔
        ∃ e ∈ st.notes, e.path = q ∧ ∃ l ∈ e.links, mapGet st.titleToPath l = some p)
    ∧ ((∀ e ∈ st.notes, ∀ l ∈ e.links, mapGet st.titleToPath l ≠ some p) →
        getBacklinksModel st p = []) := by
  have hmem : ∀ q, q ∈ getBacklinksModel st p ↔
      ∃ e ∈ st.notes, e.path = q ∧ ∃ l ∈ e.links, mapGet st.titleToPath l = some p := by
    intro q
    unfold getBacklinksModel
    rw [hbl]
    unfold rebuildBacklinksModel
    rw [backlinks_fold]
    simp [multiGet]
  refine ⟨hmem, ?_⟩
  intro hnone
  refine List.eq_nil_iff_forall_not_mem.mpr ?_
  intro q hq
  obtain ⟨e, he, _, l, hl, hres⟩ := (hmem q).mp hq
  exact hnone e he l hl hres

/-- Witness for `getBacklinks_characterization`: in the spec's scenario,
`A.md` is the unique backlink source of `B.md`. -/
theorem getBacklinks_characterization_witness :
    (idxScenA.backlinks = rebuildBacklinksModel idxScenA.notes idxScenA.titleToPath)
    ∧ ("/v/A.md" ∈ getBacklinksModel idxScenA "/v/B.md" ↔
        ∃ e ∈ idxScenA.notes, e.path = "/v/A.md"
          ∧ ∃ l ∈ e.links, mapGet idxScenA.titleToPath l = some "/v/B.md")
    ∧ getBacklinksModel idxScenA "/v/B.md" = ["/v/A.md"] := by
  refine ⟨by decide, ?_, by decide⟩
  exact (getBacklinks_characterization idxScenA "/v/B.md" (by decide)).1 "/v/A.md"

theorem mapGet_mapSet (m : List (String × String)) (k v key : String) :
    mapGet (mapSet m k v) key = if key = k then some v else mapGet m key := by
  induction m with
  | nil =>
    by_cases hk : key = k
    · subst hk; simp [mapSet, mapGet]
    · have hk2 : ¬ k = key := fun h => hk h.symm
      simp [mapSet, mapGet, hk, hk2]
  | cons kv r ih =>
    obtain ⟨k0, v0⟩ := kv
    by_cases h0 : k0 = k
    · subst h0
      by_cases hk : key = k0
      · subst hk; simp [mapSet, mapGet]
      · have hk2 : ¬ k0 = key := fun h => hk h.symm
        simp [mapSet, mapGet, hk, hk2]
    · by_cases hk : k0 = key
      · subst hk
        simp [mapSet, mapGet, h0]
      · simp [mapSet, mapGet, h0, hk, ih]

theorem mapSet_keys (m : List (String × String)) (k v : String) :
    (mapSet m k v).map Prod.fst
      = if k ∈ m.map Prod.fst then m.map Prod.fst else m.map Prod.fst ++ [k] := by
  induction m with
  | nil => simp [mapSet]
  | cons kv r ih =>
    obtain ⟨k0, v0⟩ := kv
    by_cases h0 : k0 = k
    · subst h0; simp [mapSet]
    · have h0s : ¬ k = k0 := fun h => h0 h.symm
      by_cases hmem : k ∈ r.map Prod.fst
      · simp [mapSet, h0, ih, hmem, h0s]
      · simp [mapSet, h0, ih, hmem, h0s]

theorem mapGet_some_mem {m : List (String × String)} {k v : String}
    (h : mapGet m k = some v) : (k, v) ∈ m := by
  induction m with
  | nil => simp [mapGet] at h
  | cons kv r ih =>
    obtain ⟨k0, v0⟩ := kv
    by_cases h0 : k0 = k
    · subst h0
      rw [mapGet, if_pos rfl] at h
      obtain rfl := Option.some.inj h
      exact List.mem_cons_self _ _
    · rw [mapGet, if_neg h0] at h
      exact List.mem_cons_of_mem _ (ih h)

theorem mapGet_none_iff {m : List (String × String)} {k : String} :
    mapGet m k = none ↔ k ∉ m.map Prod.fst := by
  induction m with
  | nil => simp [mapGet]
  | cons kv r ih =>
    obtain ⟨k0, v0⟩ := kv
    by_cases h0 : k0 = k
    · subst h0; simp [mapGet]
    · rw [mapGet, if_neg h0, ih]
      simp only [List.map_cons, List.mem_cons]
      constructor
      · intro h hc
        rcases hc with hc1 | hc2
        · exact h0 hc1.symm
        · exact h hc2
      · intro h hc
        exact h (Or.inr hc)

theorem mem_mapSet {m : List (String × String)} {k v : String} {kv2 : String × String}
    (hnd : (m.map Prod.fst).Nodup) :
    kv2 ∈ mapSet m k v ↔ kv2 = (k, v) ∨ (kv2 ∈ m ∧ kv2.1 ≠ k) := by
  induction m with
  | nil =>
    constructor
    · intro h
      rcases List.mem_cons.mp h with rfl | h2
      · exact Or.inl rfl
      · simp at h2
    · rintro (rfl | ⟨h2, _⟩)
      · exact List.mem_cons_self _ _
      · simp at h2
  | cons kv0 r ih =>
    obtain ⟨k0, v0⟩ := kv0
    simp only [List.map_cons, List.nodup_cons] at hnd
    obtain ⟨hk0, hndr⟩ := hnd
    by_cases h0 : k0 = k
    · subst h0
      rw [mapSet, if_pos rfl]
      constructor
      · intro h
        rcases List.mem_cons.mp h with rfl | h2
        · exact Or.inl rfl
        · refine Or.inr ⟨List.mem_cons_of_mem _ h2, ?_⟩
          intro hc
          exact hk0 (by
            have : kv2.1 ∈ r.map Prod.fst := List.mem_map.mpr ⟨kv2, h2, rfl⟩
            rwa [hc] at this)
      · rintro (rfl | ⟨h2, hne⟩)
        · exact List.mem_cons_self _ _
        · rcases List.mem_cons.mp h2 with rfl | h3
          · exact absurd rfl hne
          · exact List.mem_cons_of_mem _ h3
    · rw [mapSet, if_neg h0]
      constructor
      · intro h
        rcases List.mem_cons.mp h with rfl | h2
        · exact Or.inr ⟨List.mem_cons_self _ _, h0⟩
        · rcases (ih hndr).mp h2 with rfl | ⟨h3, hne⟩
          · exact Or.inl rfl
          · exact Or.inr ⟨List.mem_cons_of_mem _ h3, hne⟩
      · rintro (rfl | ⟨h2, hne⟩)
        · exact List.mem_cons_of_mem _ ((ih hndr).mpr (Or.inl rfl))
        · rcases List.mem_cons.mp h2 with rfl | h3
          · exact List.mem_cons_self _ _
          · exact List.mem_cons_of_mem _ ((ih hndr).mpr (Or.inr ⟨h3, hne⟩))

theorem mapDelete_sublist (m : List (String × String)) (k : String) :
    List.Sublist (mapDelete m k) m := by
  induction m with
  | nil => simp [mapDelete]
  | cons kv r ih =>
    obtain ⟨k0, v0⟩ := kv
    by_cases h0 : k0 = k
    · rw [mapDelete, if_pos h0]
      exact List.sublist_cons_self _ _
    · rw [mapDelete, if_neg h0]
      exact ih.cons₂ _

theorem mem_mapDelete {m : List (String × String)} {k : String} {kv2 : String × String}
    (hnd : (m.map Prod.fst).Nodup) :
    kv2 ∈ mapDelete m k ↔ kv2 ∈ m ∧ kv2.1 ≠ k := by
  induction m with
  | nil => simp [mapDelete]
  | cons kv0 r ih =>
    obtain ⟨k0, v0⟩ := kv0
    simp only [List.map_cons, List.nodup_cons] at hnd
    obtain ⟨hk0, hndr⟩ := hnd
    by_cases h0 : k0 = k
    · subst h0
      rw [mapDelete, if_pos rfl]
      constructor
      · intro h
        refine ⟨List.mem_cons_of_mem _ h, ?_⟩
        intro hc
        exact hk0 (by
          have : kv2.1 ∈ r.map Prod.fst := List.mem_map.mpr ⟨kv2, h, rfl⟩
          rwa [hc] at this)
      · rintro ⟨h2, hne⟩
        rcases List.mem_cons.mp h2 with rfl | h3
        · exact absurd rfl hne
        · exact h3
    · rw [mapDelete, if_neg h0]
      constructor
      · intro h
        rcases List.mem_cons.mp h with rfl | h2
        · exact ⟨List.mem_cons_self _ _, h0⟩
        · obtain ⟨h3, hne⟩ := (ih hndr).mp h2
          exact ⟨List.mem_cons_of_mem _ h3, hne⟩
      · rintro ⟨h2, hne⟩
        rcases List.mem_cons.mp h2 with rfl | h3
        · exact List.mem_cons_self _ _
        · exact List.mem_cons_of_mem _ ((ih hndr).mpr ⟨h3, hne⟩)

theorem mapGet_mapDelete {m : List (String × String)} {k key : String}
    (hnd : (m.map Prod.fst).Nodup) :
    mapGet (mapDelete m k) key = if key = k then none else mapGet m key := by
  induction m with
  | nil => simp [mapDelete, mapGet]
  | cons kv0 r ih =>
    obtain ⟨k0, v0⟩ := kv0
    simp only [List.map_cons, List.nodup_cons] at hnd
    obtain ⟨hk0, hndr⟩ := hnd
    by_cases h0 : k0 = k
    · subst h0
      rw [mapDelete, if_pos rfl]
      by_cases hk : key = k0
      · subst hk
        rw [if_pos rfl]
        rw [mapGet_none_iff]
        exact hk0
      · have hk2 : ¬ k0 = key := fun h => hk h.symm
        rw [if_neg hk, mapGet, if_neg hk2]
    · rw [mapDelete, if_neg h0]
      by_cases hk : k0 = key
      · subst hk
        have hne : ¬ k0 = k := h0
        rw [mapGet, if_pos rfl, if_neg (fun h => h0 h), mapGet, if_pos rfl]
      · rw [mapGet, if_neg hk, ih hndr, mapGet, if_neg hk]

theorem notesGet_some {notes : List NoteIndexEntry} {p : String} {e : NoteIndexEntry}
    (h : notesGet notes p = some e) : e ∈ notes ∧ e.path = p := by
  induction notes with
  | nil => simp [notesGet] at h
  | cons e0 r ih =>
    by_cases h0 : e0.path = p
    · rw [notesGet, if_pos h0] at h
      obtain rfl := Option.some.inj h
      exact ⟨List.mem_cons_self _ _, h0⟩
    · rw [notesGet, if_neg h0] at h
      obtain ⟨hm, hp⟩ := ih h
      exact ⟨List.mem_cons_of_mem _ hm, hp⟩

theorem notesGet_none_iff {notes : List NoteIndexEntry} {p : String} :
    notesGet notes p = none ↔ p ∉ notes.map NoteIndexEntry.path := by
  induction notes with
  | nil => simp [notesGet]
  | cons e0 r ih =>
    by_cases h0 : e0.path = p
    · simp [notesGet, h0]
    · rw [notesGet, if_neg h0, ih]
      simp only [List.map_cons, List.mem_cons]
      constructor
      · intro h hc
        rcases hc with hc1 | hc2
        · exact h0 hc1.symm
        · exact h hc2
      · intro h hc
        exact h (Or.inr hc)

theorem notesSet_paths (notes : List NoteIndexEntry) (e : NoteIndexEntry) :
    (notesSet notes e).map NoteIndexEntry.path
      = if e.path ∈ notes.map NoteIndexEntry.path then notes.map NoteIndexEntry.path
        else notes.map NoteIndexEntry.path ++ [e.path] := by
  induction notes with
  | nil => simp [notesSet]
  | cons e0 r ih =>
    by_cases h0 : e0.path = e.path
    · rw [notesSet, if_pos h0]
      simp [h0]
    · have h0s : ¬ e.path = e0.path := fun h => h0 h.symm
      by_cases hmem : e.path ∈ r.map NoteIndexEntry.path
      · simp [notesSet, h0, ih, hmem, h0s]
      · simp [notesSet, h0, ih, hmem, h0s]

theorem notesSet_titles_mem {notes : List NoteIndexEntry} {e : NoteIndexEntry} {t : String}
    (h : t ∈ (notesSet notes e).map NoteIndexEntry.lowerTitle) :
    t ∈ notes.map NoteIndexEntry.lowerTitle ∨ t = e.lowerTitle := by
  induction notes with
  | nil =>
    simp [notesSet] at h
    exact Or.inr h
  | cons e0 r ih =>
    by_cases h0 : e0.path = e.path
    · rw [notesSet, if_pos h0] at h
      simp only [List.map_cons, List.mem_cons] at h
      rcases h with rfl | h2
      · exact Or.inr rfl
      · exact Or.inl (List.mem_cons_of_mem _ h2)
    · rw [notesSet, if_neg h0] at h
      simp only [List.map_cons, List.mem_cons] at h
      rcases h with rfl | h2
      · exact Or.inl (List.mem_cons_self _ _)
      · rcases ih h2 with h3 | h3
        · exact Or.inl (List.mem_cons_of_mem _ h3)
        · exact Or.inr h3

theorem mem_notesSet {notes : List NoteIndexEntry} {e e2 : NoteIndexEntry}
    (hnd : (notes.map NoteIndexEntry.path).Nodup) :
    e2 ∈ notesSet notes e ↔ e2 = e ∨ (e2 ∈ notes ∧ e2.path ≠ e.path) := by
  induction notes with
  | nil =>
    constructor
    · intro h
      rcases List.mem_cons.mp h with rfl | h2
      · exact Or.inl rfl
      · simp at h2
    · rintro (rfl | ⟨h2, _⟩)
      · exact List.mem_cons_self _ _
      · simp at h2
  | cons e0 r ih =>
    simp only [List.map_cons, List.nodup_cons] at hnd
    obtain ⟨hp0, hndr⟩ := hnd
    by_cases h0 : e0.path = e.path
    · rw [notesSet, if_pos h0]
      constructor
      · intro h
        rcases List.mem_cons.mp h with rfl | h2
        · exact Or.inl rfl
        · refine Or.inr ⟨List.mem_cons_of_mem _ h2, ?_⟩
          intro hc
          refine hp0 ?_
          rw [h0, ← hc]
          exact List.mem_map.mpr ⟨e2, h2, rfl⟩
      · rintro (rfl | ⟨h2, hne⟩)
        · exact List.mem_cons_self _ _
        · rcases List.mem_cons.mp h2 with rfl | h3
          · exact absurd h0 hne
          · exact List.mem_cons_of_mem _ h3
    · rw [notesSet, if_neg h0]
      constructor
      · intro h
        rcases List.mem_cons.mp h with rfl | h2
        · exact Or.inr ⟨List.mem_cons_self _ _, h0⟩
        · rcases (ih hndr).mp h2 with rfl | ⟨h3, hne⟩
          · exact Or.inl rfl
          · exact Or.inr ⟨List.mem_cons_of_mem _ h3, hne⟩
      · rintro (rfl | ⟨h2, hne⟩)
        · exact List.mem_cons_of_mem _ ((ih hndr).mpr (Or.inl rfl))
        · rcases List.mem_cons.mp h2 with rfl | h3
          · exact List.mem_cons_self _ _
          · exact List.mem_cons_of_mem _ ((ih hndr).mpr (Or.inr ⟨h3, hne⟩))

theorem notesDelete_sublist (notes : List NoteIndexEntry) (p : String) :
    List.Sublist (notesDelete notes p) notes := by
  induction notes with
  | nil => simp [notesDelete]
  | cons e0 r ih =>
    by_cases h0 : e0.path = p
    · rw [notesDelete, if_pos h0]
      exact List.sublist_cons_self _ _
    · rw [notesDelete, if_neg h0]
      exact ih.cons₂ _

theorem mem_notesDelete {notes : List NoteIndexEntry} {p : String} {e2 : NoteIndexEntry}
    (hnd : (notes.map NoteIndexEntry.path).Nodup) :
    e2 ∈ notesDelete notes p ↔ e2 ∈ notes ∧ e2.path ≠ p := by
  induction notes with
  | nil => simp [notesDelete]
  | cons e0 r ih =>
    simp only [List.map_cons, List.nodup_cons] at hnd
    obtain ⟨hp0, hndr⟩ := hnd
    by_cases h0 : e0.path = p
    · subst h0
      rw [notesDelete, if_pos rfl]
      constructor
      · intro h
        refine ⟨List.mem_cons_of_mem _ h, ?_⟩
        intro hc
        refine hp0 ?_
        rw [← hc]
        exact List.mem_map.mpr ⟨e2, h, rfl⟩
      · rintro ⟨h2, hne⟩
        rcases List.mem_cons.mp h2 with rfl | h3
        · exact absurd rfl hne
        · exact h3
    · rw [notesDelete, if_neg h0]
      constructor
      · intro h
        rcases List.mem_cons.mp h with rfl | h2
        · exact ⟨List.mem_cons_self _ _, h0⟩
        · obtain ⟨h3, hne⟩ := (ih hndr).mp h2
          exact ⟨List.mem_cons_of_mem _ h3, hne⟩
      · rintro ⟨h2, hne⟩
        rcases List.mem_cons.mp h2 with rfl | h3
        · exact List.mem_cons_self _ _
        · exact List.mem_cons_of_mem _ ((ih hndr).mpr ⟨h3, hne⟩)

theorem entries_eq_of_path {notes : List NoteIndexEntry} {e1 e2 : NoteIndexEntry}
    (hnd : (notes.map NoteIndexEntry.path).Nodup)
    (h1 : e1 ∈ notes) (h2 : e2 ∈ notes) (hp : e1.path = e2.path) : e1 = e2 := by
  induction notes with
  | nil => simp at h1
  | cons e0 r ih =>
    simp only [List.map_cons, List.nodup_cons] at hnd
    obtain ⟨hp0, hndr⟩ := hnd
    rcases List.mem_cons.mp h1 with rfl | hm1 <;> rcases List.mem_cons.mp h2 with rfl | hm2
    · rfl
    · exact absurd (by rw [hp]; exact List.mem_map.mpr ⟨e2, hm2, rfl⟩) hp0
    · exact absurd (by rw [← hp]; exact List.mem_map.mpr ⟨e1, hm1, rfl⟩) hp0
    · exact ih hndr hm1 hm2

theorem entries_eq_of_title {notes : List NoteIndexEntry} {e1 e2 : NoteIndexEntry}
    (hnd : (notes.map NoteIndexEntry.lowerTitle).Nodup)
    (h1 : e1 ∈ notes) (h2 : e2 ∈ notes) (hp : e1.lowerTitle = e2.lowerTitle) : e1 = e2 := by
  induction notes with
  | nil => simp at h1
  | cons e0 r ih =>
    simp only [List.map_cons, List.nodup_cons] at hnd
    obtain ⟨hp0, hndr⟩ := hnd
    rcases List.mem_cons.mp h1 with rfl | hm1 <;> rcases List.mem_cons.mp h2 with rfl | hm2
    · rfl
    · exact absurd (by rw [hp]; exact List.mem_map.mpr ⟨e2, hm2, rfl⟩) hp0
    · exact absurd (by rw [← hp]; exact List.mem_map.mpr ⟨e1, hm1, rfl⟩) hp0
    · exact ih hndr hm1 hm2

theorem notesSet_titles_nodup {notes : List NoteIndexEntry} {e : NoteIndexEntry}
    (hndp : (notes.map NoteIndexEntry.path).Nodup)
    (hndt : (notes.map NoteIndexEntry.lowerTitle).Nodup)
    (hfresh : ∀ e2 ∈ notes, e2.path ≠ e.path → e2.lowerTitle ≠ e.lowerTitle) :
    ((notesSet notes e).map NoteIndexEntry.lowerTitle).Nodup := by
  induction notes with
  | nil => simp [notesSet]
  | cons e0 r ih =>
    simp only [List.map_cons, List.nodup_cons] at hndp hndt
    obtain ⟨hp0, hndpr⟩ := hndp
    obtain ⟨ht0, hndtr⟩ := hndt
    by_cases h0 : e0.path = e.path
    · rw [notesSet, if_pos h0]
      simp only [List.map_cons, List.nodup_cons]
      refine ⟨?_, hndtr⟩
      intro hc
      obtain ⟨e2, he2, het⟩ := List.mem_map.mp hc
      have hne : e2.path ≠ e.path := by
        intro hpc
        refine hp0 ?_
        rw [h0, ← hpc]
        exact List.mem_map.mpr ⟨e2, he2, rfl⟩
      exact hfresh e2 (List.mem_cons_of_mem _ he2) hne het
    · rw [notesSet, if_neg h0]
      simp only [List.map_cons, List.nodup_cons]
      refine ⟨?_, ih hndpr hndtr
        (fun e2 he2 hne => hfresh e2 (List.mem_cons_of_mem _ he2) hne)⟩
      intro hc
      rcases notesSet_titles_mem hc with h3 | h3
      · exact ht0 h3
      · exact hfresh e0 (List.mem_cons_self _ _) h0 h3

theorem nodup_append_singleton {α : Type} {l : List α} {x : α}
    (h : l.Nodup) (hx : x ∉ l) : (l ++ [x]).Nodup := by
  induction l with
  | nil => simp
  | cons y ys ih =>
    simp only [List.nodup_cons] at h
    obtain ⟨hy, hys⟩ := h
    simp only [List.cons_append, List.nodup_cons]
    constructor
    · intro hc
      rcases List.mem_append.mp hc with h1 | h2
      · exact hy h1
      · rcases List.mem_cons.mp h2 with rfl | h3
        · exact hx (List.mem_cons_self _ _)
        · simp at h3
    · exact ih hys (fun hc => hx (List.mem_cons_of_mem _ hc))

theorem mem_notesSet_weak {notes : List NoteIndexEntry} {e e2 : NoteIndexEntry}
    (h : e2 ∈ notesSet notes e) : e2 ∈ notes ∨ e2 = e := by
  induction notes with
  | nil =>
    rcases List.mem_cons.mp h with rfl | h2
    · exact Or.inr rfl
    · simp at h2
  | cons e0 r ih =>
    by_cases h0 : e0.path = e.path
    · rw [notesSet, if_pos h0] at h
      rcases List.mem_cons.mp h with rfl | h2
      · exact Or.inr rfl
      · exact Or.inl (List.mem_cons_of_mem _ h2)
    · rw [notesSet, if_neg h0] at h
      rcases List.mem_cons.mp h with rfl | h2
      · exact Or.inl (List.mem_cons_self _ _)
      · rcases ih h2 with h3 | h3
        · exact Or.inl (List.mem_cons_of_mem _ h3)
        · exact Or.inr h3

/-- Preservation of the Title Resolver invariant by a single `indexFile`
call, provided the incoming title collides with no other registered note
(and, on the `build` path, the file is new). -/
theorem indexFile_preserves {fs : FS} {st st' : IndexState} {p : String} {u : Bool}
    (hwf : RegistryWF st) (hinv : TitleInv st)
    (h : indexFileModel fs st p u = some st')
    (hfreshT : ∀ e ∈ st.notes, e.path ≠ p →
      e.lowerTitle ≠ normalizeTitle (noteTitleFromPath p))
    (hmode : u = true ∨ notesGet st.notes p = none) :
    RegistryWF st' ∧ TitleInv st' := by
  obtain ⟨hndp, hndk, hndt⟩ := hwf
  obtain ⟨hinv1, hinv2⟩ := hinv
  unfold indexFileModel at h
  cases hmd : isMarkdownFile p with
  | false =>
    rw [hmd] at h
    simp only [Bool.not_false, if_pos] at h
    obtain rfl := Option.some.inj h
    exact ⟨⟨hndp, hndk, hndt⟩, ⟨hinv1, hinv2⟩⟩
  | true =>
    rw [hmd] at h
    simp only [Bool.not_true, Bool.false_eq_true, if_false] at h
    cases hread : fsLookup fs p with
    | none => rw [hread] at h; exact absurd h (by simp)
    | some content =>
      rw [hread] at h
      obtain rfl := (Option.some.inj h).symm
      clear h
      set nt := normalizeTitle (noteTitleFromPath p) with hnt
      cases hex : notesGet st.notes p with
      | some existing =>
        obtain ⟨hexm, hexp⟩ := notesGet_some hex
        have hnd1 : ((mapDelete st.titleToPath existing.lowerTitle).map Prod.fst).Nodup :=
          ((mapDelete_sublist _ _).map _).nodup hndk
        have htm1 : tmForIndex st p u = mapDelete st.titleToPath existing.lowerTitle := by
          rcases hmode with rfl | hnone
          · simp [tmForIndex, hex]
          · rw [hex] at hnone; exact absurd hnone (by simp)
        rw [htm1]
        have hmempaths : p ∈ st.notes.map NoteIndexEntry.path :=
          List.mem_map.mpr ⟨existing, hexm, hexp⟩
        refine ⟨⟨?_, ?_, ?_⟩, ?_, ?_⟩
        · rw [notesSet_paths,
            if_pos (show (mkEntry st p content).path ∈ st.notes.map NoteIndexEntry.path
              from hmempaths)]
          exact hndp
        · rw [mapSet_keys]
          split
          · exact hnd1
          next hnotmem => exact nodup_append_singleton hnd1 hnotmem
        · exact notesSet_titles_nodup hndp hndt
            (fun e2 he2 hne => hfreshT e2 he2 hne)
        · intro kv hkv
          rcases (mem_mapSet hnd1).mp hkv with rfl | ⟨hkv2, hkne⟩
          · refine ⟨_, (mem_notesSet hndp).mpr (Or.inl rfl), rfl, rfl⟩
          · obtain ⟨hkv3, hk0⟩ := (mem_mapDelete hndk).mp hkv2
            obtain ⟨e2, he2, he2p, he2t⟩ := hinv1 kv hkv3
            have he2ne : e2.path ≠ p := by
              intro hc
              have : e2 = existing := entries_eq_of_path hndp he2 hexm (by rw [hc, hexp])
              exact hk0 (by rw [← he2t, this])
            exact ⟨e2, (mem_notesSet hndp).mpr (Or.inr ⟨he2, he2ne⟩), he2p, he2t⟩
        · intro e2 he2
          rcases (mem_notesSet hndp).mp he2 with rfl | ⟨he2m, he2ne⟩
          · rw [mapGet_mapSet,
              if_pos (show (mkEntry st p content).lowerTitle = nt from rfl)]
            rfl
          · have hne : e2.lowerTitle ≠ nt := hfreshT e2 he2m he2ne
            rw [mapGet_mapSet, if_neg hne, mapGet_mapDelete hndk]
            have hne2 : e2.lowerTitle ≠ existing.lowerTitle := by
              intro hc
              refine he2ne ?_
              rw [show e2 = existing from entries_eq_of_title hndt he2m hexm hc, hexp]
              rfl
            rw [if_neg hne2]
            exact hinv2 e2 he2m
      | none =>
        have hnotp : p ∉ st.notes.map NoteIndexEntry.path := notesGet_none_iff.mp hex
        have htm1 : tmForIndex st p u = st.titleToPath := by
          cases u <;> simp [tmForIndex, hex]
        rw [htm1]
        have hntfresh : nt ∉ st.titleToPath.map Prod.fst := by
          intro hc
          cases hget : mapGet st.titleToPath nt with
          | none => exact (mapGet_none_iff.mp hget) hc
          | some v =>
            obtain ⟨e2, he2, _, he2t⟩ := hinv1 _ (mapGet_some_mem hget)
            have : e2.path ≠ p := by
              intro hpc
              exact hnotp (by rw [← hpc]; exact List.mem_map.mpr ⟨e2, he2, rfl⟩)
            exact hfreshT e2 he2 this he2t
        refine ⟨⟨?_, ?_, ?_⟩, ?_, ?_⟩
        · rw [notesSet_paths,
            if_neg (show (mkEntry st p content).path ∉ st.notes.map NoteIndexEntry.path
              from hnotp)]
          exact nodup_append_singleton hndp hnotp
        · rw [mapSet_keys, if_neg hntfresh]
          exact nodup_append_singleton hndk hntfresh
        · exact notesSet_titles_nodup hndp hndt
            (fun e2 he2 hne => hfreshT e2 he2 hne)
        · intro kv hkv
          rcases (mem_mapSet hndk).mp hkv with rfl | ⟨hkv2, hkne⟩
          · exact ⟨_, (mem_notesSet hndp).mpr (Or.inl rfl), rfl, rfl⟩
          · obtain ⟨e2, he2, he2p, he2t⟩ := hinv1 kv hkv2
            have he2ne : e2.path ≠ p := by
              intro hc
              exact hnotp (by rw [← hc]; exact List.mem_map.mpr ⟨e2, he2, rfl⟩)
            exact ⟨e2, (mem_notesSet hndp).mpr (Or.inr ⟨he2, he2ne⟩), he2p, he2t⟩
        · intro e2 he2
          rcases (mem_notesSet hndp).mp he2 with rfl | ⟨he2m, he2ne⟩
          · rw [mapGet_mapSet,
              if_pos (show (mkEntry st p content).lowerTitle = nt from rfl)]
            rfl
          · have hne : e2.lowerTitle ≠ nt := hfreshT e2 he2m he2ne
            rw [mapGet_mapSet, if_neg hne]
            exact hinv2 e2 he2m

/-- Preservation of the Title Resolver invariant by `removeFile`. -/
theorem removeFile_preserves {st : IndexState} {p : String}
    (hwf : RegistryWF st) (hinv : TitleInv st) :
    RegistryWF (removeFileModel st p) ∧ TitleInv (removeFileModel st p) := by
  obtain ⟨hndp, hndk, hndt⟩ := hwf
  obtain ⟨hinv1, hinv2⟩ := hinv
  unfold removeFileModel
  cases hex : notesGet st.notes p with
  | none => exact ⟨⟨hndp, hndk, hndt⟩, ⟨hinv1, hinv2⟩⟩
  | some existing =>
    obtain ⟨hexm, hexp⟩ := notesGet_some hex
    simp only [rebuildDerived]
    refine ⟨⟨?_, ?_, ?_⟩, ?_, ?_⟩
    · exact ((notesDelete_sublist st.notes p).map _).nodup hndp
    · exact ((mapDelete_sublist st.titleToPath existing.lowerTitle).map _).nodup hndk
    · exact ((notesDelete_sublist st.notes p).map _).nodup hndt
    · intro kv hkv
      obtain ⟨hkv2, hkne⟩ := (mem_mapDelete hndk).mp hkv
      obtain ⟨e2, he2, he2p, he2t⟩ := hinv1 kv hkv2
      have he2ne : e2.path ≠ p := by
        intro hc
        have : e2 = existing := entries_eq_of_path hndp he2 hexm (by rw [hc, hexp])
        exact hkne (by rw [← he2t, this])
      exact ⟨e2, (mem_notesDelete hndp).mpr ⟨he2, he2ne⟩, he2p, he2t⟩
    · intro e2 he2
      obtain ⟨he2m, he2ne⟩ := (mem_notesDelete hndp).mp he2
      have hne2 : e2.lowerTitle ≠ existing.lowerTitle := by
        intro hc
        exact he2ne (by
          rw [show e2 = existing from entries_eq_of_title hndt he2m hexm hc, hexp])
      rw [mapGet_mapDelete hndk, if_neg hne2]
      exact hinv2 e2 he2m

theorem foldl_index_none (fs : FS) (files : List String) :
    (files.foldl (fun acc q =>
      match acc with
      | none => none
      | some st0 => indexFileModel fs st0 q false) none) = none := by
  induction files with
  | nil => rfl
  | cons q files ih => exact ih

theorem indexFile_notes_shape {fs : FS} {st st' : IndexState} {p : String} {u : Bool}
    (h : indexFileModel fs st p u = some st') :
    ∀ e ∈ st'.notes, e ∈ st.notes
      ∨ (e.path = p ∧ e.lowerTitle = normalizeTitle (noteTitleFromPath p)) := by
  unfold indexFileModel at h
  cases hmd : isMarkdownFile p with
  | false =>
    rw [hmd] at h
    simp only [Bool.not_false, if_pos] at h
    obtain rfl := Option.some.inj h
    exact fun e he => Or.inl he
  | true =>
    rw [hmd] at h
    simp only [Bool.not_true, Bool.false_eq_true, if_false] at h
    cases hread : fsLookup fs p with
    | none => rw [hread] at h; exact absurd h (by simp)
    | some content =>
      rw [hread] at h
      obtain rfl := (Option.some.inj h).symm
      intro e he
      rcases mem_notesSet_weak he with h2 | rfl
      · exact Or.inl h2
      · exact Or.inr ⟨rfl, rfl⟩

/-- The `build` fold keeps the invariant (files pairwise distinct in path
and normalized title, all new to the state). -/
theorem buildFold_preserves (fs : FS) : ∀ (files : List String) (st : IndexState),
    RegistryWF st → TitleInv st →
    (∀ q ∈ files, ∀ e ∈ st.notes,
      e.path ≠ q ∧ e.lowerTitle ≠ normalizeTitle (noteTitleFromPath q)) →
    (files.map (fun q => normalizeTitle (noteTitleFromPath q))).Nodup →
    files.Nodup →
    ∀ st', (files.foldl (fun acc q =>
      match acc with
      | none => none
      | some st0 => indexFileModel fs st0 q false) (some st)) = some st' →
    RegistryWF st' ∧ TitleInv st' := by
  intro files
  induction files with
  | nil =>
    intro st hwf hinv _ _ _ st' h
    obtain rfl := Option.some.inj h
    exact ⟨hwf, hinv⟩
  | cons q files ih =>
    intro st hwf hinv hcond hndt hndf st' h
    simp only [List.foldl_cons] at h
    cases hstep : indexFileModel fs st q false with
    | none =>
      rw [hstep] at h
      rw [foldl_index_none] at h
      exact absurd h (by simp)
    | some st1 =>
      rw [hstep] at h
      have hfresh : ∀ e ∈ st.notes, e.path ≠ q →
          e.lowerTitle ≠ normalizeTitle (noteTitleFromPath q) :=
        fun e he _ => (hcond q (List.mem_cons_self _ _) e he).2
      have hnone : notesGet st.notes q = none := by
        rw [notesGet_none_iff]
        intro hc
        obtain ⟨e, he, hep⟩ := List.mem_map.mp hc
        exact (hcond q (List.mem_cons_self _ _) e he).1 hep
      obtain ⟨hwf1, hinv1⟩ := indexFile_preserves hwf hinv hstep hfresh (Or.inr hnone)
      simp only [List.map_cons, List.nodup_cons] at hndt
      simp only [List.nodup_cons] at hndf
      refine ih st1 hwf1 hinv1 ?_ hndt.2 hndf.2 st' h
      intro q2 hq2 e he
      rcases indexFile_notes_shape hstep e he with hold | ⟨hep, het⟩
      · exact hcond q2 (List.mem_cons_of_mem _ hq2) e hold
      · constructor
        · rw [hep]
          intro hc
          exact hndf.1 (by rw [hc]; exact hq2)
        · rw [het]
          intro hc
          exact hndt.1 (by rw [hc]; exact List.mem_map.mpr ⟨q2, hq2, rfl⟩)

/-- C6 counterexample: index `/v/a.md` then `/v/sub/a.md` (same normalized
title `a`), completing two registry mutations.  The first path is registered
but absent from the Title Resolver's value set — so the value set is not the
registered-path set and that path is under no key.  Then removing the loser
deletes the shared key entirely, so the surviving, most recently indexed
note is no longer the value under its title key. -/
theorem titleResolver_counterexample :
    ("/v/a.md" ∈ idxDup.notes.map NoteIndexEntry.path)
    ∧ ("/v/a.md" ∉ idxDup.titleToPath.map Prod.snd)
    ∧ ("/v/sub/a.md" ∈ idxDupRemoved.notes.map NoteIndexEntry.path)
    ∧ idxDupRemoved.titleToPath.map Prod.snd = [] :=
  ⟨by decide, by decide, by decide, by decide⟩

/-- C6 (amended): provided no two registered notes share a normalized title
(and indexAll inputs are pairwise distinct in path and normalized title),
every registry mutation — indexFile (either mode), removeFile, and a full
build — preserves registry well-formedness and the Title Resolver invariant;
and under that invariant the resolver's value set is exactly the set of
registered paths, with each registered path stored under exactly one key,
its own normalized title. -/
theorem titleResolver_invariant_amended :
    (∀ fs st st' p u, RegistryWF st → TitleInv st →
      indexFileModel fs st p u = some st' →
      (∀ e ∈ st.notes, e.path ≠ p → e.lowerTitle ≠ normalizeTitle (noteTitleFromPath p)) →
      (u = true ∨ notesGet st.notes p = none) →
      RegistryWF st' ∧ TitleInv st')
    ∧ (∀ st p, RegistryWF st → TitleInv st →
      RegistryWF (removeFileModel st p) ∧ TitleInv (removeFileModel st p))
    ∧ (∀ vault fs files st', buildModel vault fs files = some st' →
      files.Nodup →
      (files.map (fun q => normalizeTitle (noteTitleFromPath q))).Nodup →
      RegistryWF st' ∧ TitleInv st')
    ∧ (∀ st, RegistryWF st → TitleInv st →
      (∀ v, (∃ k, mapGet st.titleToPath k = some v) ↔
        v ∈ st.notes.map NoteIndexEntry.path)
      ∧ (∀ e ∈ st.notes, mapGet st.titleToPath e.lowerTitle = some e.path
          ∧ ∀ k, mapGet st.titleToPath k = some e.path → k = e.lowerTitle)) := by
  refine ⟨?_, ?_, ?_, ?_⟩
  · intro fs st st' p u hwf hinv h hfresh hmode
    exact indexFile_preserves hwf hinv h hfresh hmode
  · intro st p hwf hinv
    exact removeFile_preserves hwf hinv
  · intro vault fs files st' h hndf hndt
    unfold buildModel at h
    cases hfold : (files.foldl (fun acc q =>
        match acc with
        | none => none
        | some st0 => indexFileModel fs st0 q false)
        (some { vaultPath := vault, notes := [], titleToPath := [],
                backlinks := [], tagIndex := [] })) with
    | none => rw [hfold] at h; exact absurd h (by simp)
    | some st0 =>
      rw [hfold] at h
      obtain rfl := (Option.some.inj h).symm
      have h0 := buildFold_preserves fs files
        { vaultPath := vault, notes := [], titleToPath := [],
          backlinks := [], tagIndex := [] }
        (by constructor <;> simp) (by constructor <;> simp)
        (by intro q _ e he; simp at he) hndt hndf st0 hfold
      obtain ⟨⟨h1, h2, h3⟩, h4, h5⟩ := h0
      exact ⟨⟨h1, h2, h3⟩, h4, h5⟩
  · intro st hwf hinv
    obtain ⟨hndp, hndk, hndt⟩ := hwf
    obtain ⟨hinv1, hinv2⟩ := hinv
    constructor
    · intro v
      constructor
      · rintro ⟨k, hk⟩
        obtain ⟨e, he, hep, _⟩ := hinv1 _ (mapGet_some_mem hk)
        exact List.mem_map.mpr ⟨e, he, hep⟩
      · intro hv
        obtain ⟨e, he, rfl⟩ := List.mem_map.mp hv
        exact ⟨e.lowerTitle, hinv2 e he⟩
    · intro e he
      refine ⟨hinv2 e he, ?_⟩
      intro k hk
      obtain ⟨e2, he2, he2p, he2t⟩ := hinv1 _ (mapGet_some_mem hk)
      have heq : e2 = e := entries_eq_of_path hndp he2 he he2p
      rw [← heq]
      exact he2t.symm

/-- Witness for `titleResolver_invariant_amended` at the concrete two-note
vault of the rename scenario (titles `a` and `b` are distinct). -/
theorem titleResolver_invariant_amended_witness :
    (RegistryWF idxScenA ∧ TitleInv idxScenA)
    ∧ ((∀ v, (∃ k, mapGet idxScenA.titleToPath k = some v) ↔
        v ∈ idxScenA.notes.map NoteIndexEntry.path)
      ∧ (∀ e ∈ idxScenA.notes, mapGet idxScenA.titleToPath e.lowerTitle = some e.path
          ∧ ∀ k, mapGet idxScenA.titleToPath k = some e.path → k = e.lowerTitle)) :=
  ⟨⟨by decide, by decide⟩,
    titleResolver_invariant_amended.2.2.2 idxScenA (by decide) (by decide)⟩

/-- C5: when source and target differ and an entry already exists at the
target, `applyRename` fails fast with the "already exists" conflict error,
empty update lists and no file-system or index change — except for a
case-only variant on a case-insensitive platform, where the conflict check
passes and the move proceeds. -/
theorem applyRename_conflict (plat : Bool) (now : String) (fs : FS) (idx : IndexState)
    (sp tp : String) (hne : sp ≠ tp) (hex : existsFS fs tp = true) :
    (¬(isCaseOnlyChange sp tp = true ∧ plat = true) →
      applyRenameModel plat now fs idx sp tp
        = (⟨false, some (conflictError tp), sp, tp, [], []⟩, fs, idx))
    ∧ ((isCaseOnlyChange sp tp = true ∧ plat = true) →
      checkRenameConflictModel plat fs sp tp = none) := by
  constructor
  · intro hnc
    have hAnd : (isCaseOnlyChange sp tp && plat) = false := by
      cases hio : isCaseOnlyChange sp tp with
      | false => rfl
      | true =>
        cases hp : plat with
        | false => rfl
        | true => exact absurd ⟨hio, hp⟩ hnc
    have hc : checkRenameConflictModel plat fs sp tp = some (conflictError tp) := by
      unfold checkRenameConflictModel
      rw [if_neg hne, if_pos (by rw [hex, hAnd]; rfl)]
    unfold applyRenameModel
    rw [hc]
  · rintro ⟨h1, h2⟩
    unfold checkRenameConflictModel
    rw [if_neg hne, if_neg (by rw [hex, h1, h2]; simp)]

/-- Witness for `applyRename_conflict`: renaming `E.md` onto the existing
case variant `e.md` on a case-sensitive platform. -/
theorem applyRename_conflict_witness :
    (("/v/E.md" : String) ≠ "/v/e.md" ∧ existsFS fsConf "/v/e.md" = true)
    ∧ ((¬(isCaseOnlyChange "/v/E.md" "/v/e.md" = true ∧ false = true) →
        applyRenameModel false "0" fsConf idxConf "/v/E.md" "/v/e.md"
          = (⟨false, some (conflictError "/v/e.md"), "/v/E.md", "/v/e.md", [], []⟩,
              fsConf, idxConf))
      ∧ ((isCaseOnlyChange "/v/E.md" "/v/e.md" = true ∧ false = true) →
        checkRenameConflictModel false fsConf "/v/E.md" "/v/e.md" = none)) :=
  ⟨⟨by decide, by decide⟩,
    applyRename_conflict false "0" fsConf idxConf "/v/E.md" "/v/e.md"
      (by decide) (by decide)⟩

/-- C10 counterexample: a self-rename of a markdown path with no file on
disk returns ok:false (the re-indexing read throws), refuting the claim
that `applyRename(p, p)` always returns ok:true. -/
theorem applyRename_self_counterexample :
    (applyRenameModel false "0" ⟨[], [], false⟩ emptyIndex "/v/g.md" "/v/g.md").1.ok
        = false
    ∧ (applyRenameModel false "0" ⟨[], [], false⟩ emptyIndex "/v/g.md" "/v/g.md").1.updatedFiles
        = []
    ∧ (applyRenameModel false "0" ⟨[], [], false⟩ emptyIndex "/v/g.md" "/v/g.md").1.failedFiles
        = [] :=
  ⟨by decide, by decide, by decide⟩

/-- C10 (amended): `applyRename(p, p)` never raises the conflict error; and
provided `p` is not a note file or a readable file exists at `p` (so the
final re-index read cannot throw), it performs no file-system change at all
and returns ok:true with empty updatedFiles and failedFiles. -/
theorem applyRename_self (plat : Bool) (now : String) (fs : FS) (idx : IndexState)
    (p : String) (hgood : isMarkdownFile p = false ∨ (fsLookup fs p).isSome) :
    checkRenameConflictModel plat fs p p = none
    ∧ (applyRenameModel plat now fs idx p p).1 = ⟨true, none, p, p, [], []⟩
    ∧ (applyRenameModel plat now fs idx p p).2.1 = fs := by
  have hconf : checkRenameConflictModel plat fs p p = none := by
    unfold checkRenameConflictModel
    rw [if_pos rfl]
  have hsafe : renamePathSafeModel plat now fs p p = some fs := by
    unfold renamePathSafeModel
    rw [if_pos rfl]
  have hadj : adjustedPathsFor idx p p = [] := by
    simp [adjustedPathsFor]
  refine ⟨hconf, ?_⟩
  unfold applyRenameModel
  rw [hconf, hsafe]
  cases hmd : isMarkdownFile p with
  | false =>
    exact ⟨rfl, rfl⟩
  | true =>
    rcases hgood with hbad | hsome
    · rw [hmd] at hbad
      exact absurd hbad (by simp)
    · obtain ⟨content, hcontent⟩ := Option.isSome_iff_exists.mp hsome
      rw [hadj]
      simp only []
      have hloop : rewriteLoop p (noteTitleFromPath p) idx.titleToPath fs []
          = (fs, [], [], none) := rfl
      rw [hloop]
      simp only [Bool.not_true, Bool.false_eq_true, if_false]
      have hdedup : dedupFirst (p :: ([] : List String)) = [p] := by
        simp [dedupFirst, dedupFirstGo]
      rw [hdedup]
      have hidx : indexFileModel fs (removeFileModel idx p) p true
          = some { removeFileModel idx p with
              notes := notesSet (removeFileModel idx p).notes
                (mkEntry (removeFileModel idx p) p content),
              titleToPath := mapSet (tmForIndex (removeFileModel idx p) p true)
                (normalizeTitle (noteTitleFromPath p)) p } := by
        unfold indexFileModel
        rw [hmd, hcontent]
        rfl
      have hmany : indexMany fs (removeFileModel idx p) [p]
          = ({ removeFileModel idx p with
              notes := notesSet (removeFileModel idx p).notes
                (mkEntry (removeFileModel idx p) p content),
              titleToPath := mapSet (tmForIndex (removeFileModel idx p) p true)
                (normalizeTitle (noteTitleFromPath p)) p }, none) := by
        unfold indexMany
        rw [if_pos hmd, hidx]
        rfl
      rw [hmany]
      exact ⟨rfl, rfl⟩

/-- Witness for `applyRename_self`: a markdown note that exists on disk. -/
theorem applyRename_self_witness :
    (isMarkdownFile "/v/B.md" = false ∨ (fsLookup fsRound "/v/B.md").isSome)
    ∧ (checkRenameConflictModel false fsRound "/v/B.md" "/v/B.md" = none
      ∧ (applyRenameModel false "0" fsRound idxRound "/v/B.md" "/v/B.md").1
          = ⟨true, none, "/v/B.md", "/v/B.md", [], []⟩
      ∧ (applyRenameModel false "0" fsRound idxRound "/v/B.md" "/v/B.md").2.1 = fsRound) :=
  ⟨Or.inr (by decide),
    applyRename_self false "0" fsRound idxRound "/v/B.md" (Or.inr (by decide))⟩

/-- Characterization of the rewrite loop: a clean run updates every path
and fails none; an erroring run stops at the first failing file — the files
before it are exactly the updated ones (with their writes kept), it and
every file after it are exactly the failed ones. -/
theorem rewriteLoop_spec (sp nt : String) (snap : List (String × String)) :
    ∀ (paths : List String) (fs : FS),
    (∀ fs2 upd fl, rewriteLoop sp nt snap fs paths = (fs2, upd, fl, none) →
      upd = paths ∧ fl = [])
    ∧ (∀ fs2 upd fl err, rewriteLoop sp nt snap fs paths = (fs2, upd, fl, some err) →
      ∃ pre fail rest, paths = pre ++ fail :: rest ∧ upd = pre ∧ fl = fail :: rest
        ∧ rewriteLoop sp nt snap fs pre = (fs2, pre, [], none)
        ∧ rewriteStepFails sp nt snap fs2 fail) := by
  intro paths
  induction paths with
  | nil =>
    intro fs
    constructor
    · intro fs2 upd fl h
      simp only [rewriteLoop, Prod.mk.injEq] at h
      exact ⟨h.2.1.symm, h.2.2.1.symm⟩
    · intro fs2 upd fl err h
      simp only [rewriteLoop, Prod.mk.injEq] at h
      exact absurd h.2.2.2 (by simp)
  | cons p rest ih =>
    intro fs
    constructor
    · intro fs2 upd fl h
      simp only [rewriteLoop] at h
      cases hread : fsLookup fs p with
      | none =>
        rw [hread] at h
        simp only [Prod.mk.injEq] at h
        exact absurd h.2.2.2 (by simp)
      | some content =>
        rw [hread] at h
        simp only [] at h
        by_cases hne : updateWikiLinksInContent content sp nt snap ≠ content
        · rw [if_pos hne] at h
          cases hw : writeFileFS fs p (updateWikiLinksInContent content sp nt snap) with
          | none =>
            rw [hw] at h
            simp only [Prod.mk.injEq] at h
            exact absurd h.2.2.2 (by simp)
          | some fs1 =>
            rw [hw] at h
            simp only [] at h
            rcases hrec : rewriteLoop sp nt snap fs1 rest with ⟨fs2x, updx, flx, errx⟩
            rw [hrec] at h
            simp only [Prod.mk.injEq] at h
            obtain ⟨he1, he2, he3, he4⟩ := h
            cases errx with
            | some e => exact absurd he4 (by simp)
            | none =>
              obtain ⟨hu, hf⟩ := (ih fs1).1 fs2x updx flx hrec
              rw [← he2, hu, ← he3, hf]
              exact ⟨rfl, rfl⟩
        · rw [if_neg hne] at h
          rcases hrec : rewriteLoop sp nt snap fs rest with ⟨fs2x, updx, flx, errx⟩
          rw [hrec] at h
          simp only [Prod.mk.injEq] at h
          obtain ⟨he1, he2, he3, he4⟩ := h
          cases errx with
          | some e => exact absurd he4 (by simp)
          | none =>
            obtain ⟨hu, hf⟩ := (ih fs).1 fs2x updx flx hrec
            rw [← he2, hu, ← he3, hf]
            exact ⟨rfl, rfl⟩
    · intro fs2 upd fl err h
      simp only [rewriteLoop] at h
      cases hread : fsLookup fs p with
      | none =>
        rw [hread] at h
        simp only [Prod.mk.injEq] at h
        obtain ⟨he1, he2, he3, _⟩ := h
        refine ⟨[], p, rest, by simp, he2.symm, he3.symm, by simp [rewriteLoop, he1], ?_⟩
        rw [← he1]
        exact Or.inl hread
      | some content =>
        rw [hread] at h
        simp only [] at h
        by_cases hne : updateWikiLinksInContent content sp nt snap ≠ content
        · rw [if_pos hne] at h
          cases hw : writeFileFS fs p (updateWikiLinksInContent content sp nt snap) with
          | none =>
            rw [hw] at h
            simp only [Prod.mk.injEq] at h
            obtain ⟨he1, he2, he3, _⟩ := h
            refine ⟨[], p, rest, by simp, he2.symm, he3.symm, by simp [rewriteLoop, he1], ?_⟩
            rw [← he1]
            exact Or.inr ⟨content, hread, hne, hw⟩
          | some fs1 =>
            rw [hw] at h
            simp only [] at h
            rcases hrec : rewriteLoop sp nt snap fs1 rest with ⟨fs2x, updx, flx, errx⟩
            rw [hrec] at h
            simp only [Prod.mk.injEq] at h
            obtain ⟨he1, he2, he3, he4⟩ := h
            cases errx with
            | none => exact absurd he4 (by simp)
            | some e =>
              obtain rfl : e = err := Option.some.inj he4
              obtain ⟨pre, fail, prest, hdec, hux, hfx, hpreeq, hfail⟩ :=
                (ih fs1).2 fs2x updx flx e hrec
              refine ⟨p :: pre, fail, prest, by rw [hdec]; rfl, ?_, ?_, ?_, ?_⟩
              · rw [← he2, hux]
              · rw [← he3, hfx]
              · simp only [rewriteLoop]
                rw [hread]
                simp only []
                rw [if_pos hne, hw]
                simp only []
                rw [hpreeq, he1]
              · rw [← he1]
                exact hfail
        · rw [if_neg hne] at h
          rcases hrec : rewriteLoop sp nt snap fs rest with ⟨fs2x, updx, flx, errx⟩
          rw [hrec] at h
          simp only [Prod.mk.injEq] at h
          obtain ⟨he1, he2, he3, he4⟩ := h
          cases errx with
          | none => exact absurd he4 (by simp)
          | some e =>
            obtain rfl : e = err := Option.some.inj he4
            obtain ⟨pre, fail, prest, hdec, hux, hfx, hpreeq, hfail⟩ :=
              (ih fs).2 fs2x updx flx e hrec
            refine ⟨p :: pre, fail, prest, by rw [hdec]; rfl, ?_, ?_, ?_, ?_⟩
            · rw [← he2, hux]
            · rw [← he3, hfx]
            · simp only [rewriteLoop]
              rw [hread]
              simp only []
              rw [if_neg hne]
              rw [hpreeq, he1]
            · rw [← he1]
              exact hfail

/-- C2: if reading or writing an affected file throws during the rewrite
loop of `applyRename`, the result is ok:false with that error; the updated
files are exactly the adjusted affected files processed before the failure,
the failed files are the failing one and every one not yet attempted (in
processing order), the two lists partition the adjusted affected list, no
further file is processed, and neither the move nor the earlier rewrites
are rolled back (the returned file system is the moved one after exactly
the successful prefix; the registry is untouched). -/
theorem applyRename_partial_failure (plat : Bool) (now : String) (fs fs1 fs2 : FS)
    (idx : IndexState) (sp tp err : String) (upd fl : List String)
    (hconf : checkRenameConflictModel plat fs sp tp = none)
    (hmove : renamePathSafeModel plat now fs sp tp = some fs1)
    (hmd : isMarkdownFile sp = true)
    (hloop : rewriteLoop sp (noteTitleFromPath tp) idx.titleToPath fs1
        (adjustedPathsFor idx sp tp) = (fs2, upd, fl, some err)) :
    applyRenameModel plat now fs idx sp tp = (⟨false, some err, sp, tp, upd, fl⟩, fs2, idx)
    ∧ upd ++ fl = adjustedPathsFor idx sp tp
    ∧ (∃ pre fail rest, adjustedPathsFor idx sp tp = pre ++ fail :: rest
        ∧ upd = pre ∧ fl = fail :: rest
        ∧ rewriteLoop sp (noteTitleFromPath tp) idx.titleToPath fs1 pre
            = (fs2, pre, [], none)
        ∧ rewriteStepFails sp (noteTitleFromPath tp) idx.titleToPath fs2 fail) := by
  obtain ⟨pre, fail, rest, hdec, hupd, hfl, hpre, hfail⟩ :=
    (rewriteLoop_spec sp (noteTitleFromPath tp) idx.titleToPath
      (adjustedPathsFor idx sp tp) fs1).2 fs2 upd fl err hloop
  refine ⟨?_, ?_, pre, fail, rest, hdec, hupd, hfl, hpre, hfail⟩
  · unfold applyRenameModel
    rw [hconf, hmove, hmd]
    simp only [Bool.not_true, Bool.false_eq_true, if_false]
    rw [hloop]
  · rw [hupd, hfl, hdec]

/-- Witness for `applyRename_partial_failure`: renaming `B.md → C.md` where
the write to the second affected file `Q.md` throws. -/
theorem applyRename_partial_failure_witness :
    (checkRenameConflictModel false fsFail "/v/B.md" "/v/C.md" = none
      ∧ renamePathSafeModel false "0" fsFail "/v/B.md" "/v/C.md" = some fsFailMoved
      ∧ isMarkdownFile "/v/B.md" = true
      ∧ rewriteLoop "/v/B.md" (noteTitleFromPath "/v/C.md") idxFail.titleToPath fsFailMoved
          (adjustedPathsFor idxFail "/v/B.md" "/v/C.md")
        = ((applyRenameModel false "0" fsFail idxFail "/v/B.md" "/v/C.md").2.1,
            ["/v/P.md"], ["/v/Q.md"], some "write failed"))
    ∧ (applyRenameModel false "0" fsFail idxFail "/v/B.md" "/v/C.md"
        = (⟨false, some "write failed", "/v/B.md", "/v/C.md", ["/v/P.md"], ["/v/Q.md"]⟩,
            (applyRenameModel false "0" fsFail idxFail "/v/B.md" "/v/C.md").2.1, idxFail)
      ∧ ["/v/P.md"] ++ ["/v/Q.md"] = adjustedPathsFor idxFail "/v/B.md" "/v/C.md"
      ∧ (∃ pre fail rest,
          adjustedPathsFor idxFail "/v/B.md" "/v/C.md" = pre ++ fail :: rest
          ∧ ["/v/P.md"] = pre ∧ ["/v/Q.md"] = fail :: rest
          ∧ rewriteLoop "/v/B.md" (noteTitleFromPath "/v/C.md") idxFail.titleToPath
              fsFailMoved pre
            = ((applyRenameModel false "0" fsFail idxFail "/v/B.md" "/v/C.md").2.1, pre,
                [], none)
          ∧ rewriteStepFails "/v/B.md" (noteTitleFromPath "/v/C.md") idxFail.titleToPath
              (applyRenameModel false "0" fsFail idxFail "/v/B.md" "/v/C.md").2.1 fail)) :=
  ⟨⟨by decide, by decide, by decide, by decide⟩,
    applyRename_partial_failure false "0" fsFail fsFailMoved
      (applyRenameModel false "0" fsFail idxFail "/v/B.md" "/v/C.md").2.1 idxFail
      "/v/B.md" "/v/C.md" "write failed" ["/v/P.md"] ["/v/Q.md"]
      (by decide) (by decide) (by decide) (by decide)⟩

theorem scoreEq_defn {a b : Score} : scoreEq a b = true ↔ a.num * b.den = b.num * a.den := by
  simp [scoreEq]

theorem scoreLt_defn {a b : Score} : scoreLt a b = true ↔ a.num * b.den < b.num * a.den := by
  simp [scoreLt]

theorem scoreEq_symm {a b : Score} (h : scoreEq a b = true) : scoreEq b a = true := by
  rw [scoreEq_defn] at *
  omega

theorem scoreLt_trans3 {a b c : Score} (ha : 0 < a.den) (hb : 0 < b.den) (hc : 0 < c.den)
    (h1 : scoreLt a b = true) (h2 : scoreLt b c = true) : scoreLt a c = true := by
  rw [scoreLt_defn] at *
  have H1 : a.num * c.den * b.den < b.num * c.den * a.den := by
    calc a.num * c.den * b.den = a.num * b.den * c.den := by ring
      _ < b.num * a.den * c.den := by exact mul_lt_mul_of_pos_right h1 hc
      _ = b.num * c.den * a.den := by ring
  have H2 : b.num * c.den * a.den < c.num * a.den * b.den := by
    calc b.num * c.den * a.den < c.num * b.den * a.den := by
          exact mul_lt_mul_of_pos_right h2 ha
      _ = c.num * a.den * b.den := by ring
  exact lt_of_mul_lt_mul_right (lt_trans H1 H2) (Nat.zero_le _)

theorem scoreEq_trans3 {a b c : Score} (hb : 0 < b.den)
    (h1 : scoreEq a b = true) (h2 : scoreEq b c = true) : scoreEq a c = true := by
  rw [scoreEq_defn] at *
  have H : a.num * c.den * b.den = c.num * a.den * b.den := by
    calc a.num * c.den * b.den = a.num * b.den * c.den := by ring
      _ = b.num * a.den * c.den := by rw [h1]
      _ = b.num * c.den * a.den := by ring
      _ = c.num * b.den * a.den := by rw [h2]
      _ = c.num * a.den * b.den := by ring
  exact Nat.eq_of_mul_eq_mul_right hb H

theorem scoreEq_lt3 {a b c : Score} (ha : 0 < a.den) (hb : 0 < b.den)
    (h1 : scoreEq a b = true) (h2 : scoreLt b c = true) : scoreLt a c = true := by
  rw [scoreEq_defn] at h1
  rw [scoreLt_defn] at *
  have H : a.num * c.den * b.den < c.num * a.den * b.den := by
    calc a.num * c.den * b.den = a.num * b.den * c.den := by ring
      _ = b.num * a.den * c.den := by rw [h1]
      _ = b.num * c.den * a.den := by ring
      _ < c.num * b.den * a.den := by exact mul_lt_mul_of_pos_right h2 ha
      _ = c.num * a.den * b.den := by ring
  exact lt_of_mul_lt_mul_right H (Nat.zero_le _)

theorem scoreLt_eq3 {a b c : Score} (hb : 0 < b.den) (hc : 0 < c.den)
    (h1 : scoreLt a b = true) (h2 : scoreEq b c = true) : scoreLt a c = true := by
  rw [scoreEq_defn] at h2
  rw [scoreLt_defn] at *
  have H : a.num * c.den * b.den < c.num * a.den * b.den := by
    calc a.num * c.den * b.den = a.num * b.den * c.den := by ring
      _ < b.num * a.den * c.den := by exact mul_lt_mul_of_pos_right h1 hc
      _ = b.num * c.den * a.den := by ring
      _ = c.num * b.den * a.den := by rw [h2]
      _ = c.num * a.den * b.den := by ring
  exact lt_of_mul_lt_mul_right H (Nat.zero_le _)

theorem score_trichotomy {a b : Score} (h : scoreEq a b = false) :
    scoreLt a b = true ∨ scoreLt b a = true := by
  have h2 : ¬ (a.num * b.den = b.num * a.den) := by
    intro hc
    rw [show scoreEq a b = true from scoreEq_defn.mpr hc] at h
    exact absurd h (by simp)
  rw [scoreLt_defn, scoreLt_defn]
  omega

theorem scorePos_num {a : Score} : scorePos a = true ↔ 0 < a.num := by
  simp [scorePos]

theorem scoreLt_of_zero_pos {a b : Score} (hb : 0 < b.den) (ha : 0 < a.num)
    (hz : b.num = 0) : scoreLt b a = true := by
  rw [scoreLt_defn, hz]
  simpa using Nat.mul_pos ha hb

/-- The quick-switch comparator coincides with its lexicographic reading on
well-formed scored entries. -/
theorem scorePos_false_num {a : Score} (h : scorePos a = false) : a.num = 0 := by
  by_contra hc
  have := scorePos_num.mpr (Nat.pos_of_ne_zero hc)
  rw [h] at this
  exact Bool.false_ne_true this

theorem qsLe_iff_qsLex {a b : ScoredEntry} (hwa : WFScored a) (hwb : WFScored b) :
    qsLe a b ↔ qsLex a b := by
  obtain ⟨hwa1, hwa2⟩ := hwa
  obtain ⟨hwb1, hwb2⟩ := hwb
  unfold qsLe qsLeB qsLex
  cases hta : scorePos a.titleScore with
  | true =>
    cases htb : scorePos b.titleScore with
    | true =>
      rw [if_neg (fun hc => hc rfl)]
      cases heq : scoreEq a.titleScore b.titleScore with
      | true =>
        have hlt1 : scoreLt b.titleScore a.titleScore = false := by
          cases hv : scoreLt b.titleScore a.titleScore
          · rfl
          · rw [scoreLt_defn] at hv
            rw [scoreEq_defn] at heq
            omega
        rw [if_neg (by simp)]
        cases heqp : scoreEq a.pathScore b.pathScore with
        | true =>
          have hlt2 : scoreLt b.pathScore a.pathScore = false := by
            cases hv : scoreLt b.pathScore a.pathScore
            · rfl
            · rw [scoreLt_defn] at hv
              rw [scoreEq_defn] at heqp
              omega
          rw [if_neg (by simp)]
          rw [hlt1, hlt2]
          simp
        | false =>
          rw [if_pos (by simp)]
          rw [hlt1]
          simp
      | false =>
        rw [if_pos (by simp)]
        simp
    | false =>
      rw [if_pos (by simp)]
      have hlt : scoreLt b.titleScore a.titleScore = true :=
        scoreLt_of_zero_pos hwb1 (scorePos_num.mp hta) (scorePos_false_num htb)
      rw [hlt]
      simp
  | false =>
    have hza : a.titleScore.num = 0 := scorePos_false_num hta
    cases htb : scorePos b.titleScore with
    | true =>
      rw [if_pos (by simp)]
      have hlt : scoreLt b.titleScore a.titleScore = false := by
        cases hv : scoreLt b.titleScore a.titleScore
        · rfl
        · rw [scoreLt_defn, hza] at hv
          omega
      have heqf : scoreEq a.titleScore b.titleScore = false := by
        cases hv : scoreEq a.titleScore b.titleScore
        · rfl
        · rw [scoreEq_defn, hza] at hv
          have hpos : 0 < b.titleScore.num * a.titleScore.den :=
            Nat.mul_pos (scorePos_num.mp htb) hwa1
          omega
      rw [hlt, heqf]
      simp
    | false =>
      have hzb : b.titleScore.num = 0 := scorePos_false_num htb
      rw [if_neg (fun hc => hc rfl)]
      rw [if_neg (by simp)]
      have hlt : scoreLt b.titleScore a.titleScore = false := by
        cases hv : scoreLt b.titleScore a.titleScore
        · rfl
        · rw [scoreLt_defn, hza, hzb] at hv
          omega
      have heqt : scoreEq a.titleScore b.titleScore = true := by
        rw [scoreEq_defn, hza, hzb]
        omega
      rw [hlt, heqt]
      cases heqp : scoreEq a.pathScore b.pathScore with
      | true =>
        have hlt2 : scoreLt b.pathScore a.pathScore = false := by
          cases hv : scoreLt b.pathScore a.pathScore
          · rfl
          · rw [scoreLt_defn] at hv
            rw [scoreEq_defn] at heqp
            omega
        rw [if_neg (by simp), hlt2]
        simp
      | false =>
        rw [if_pos (by simp)]
        simp

theorem qsLex_trans {a b c : ScoredEntry} (hwa : WFScored a) (hwb : WFScored b)
    (hwc : WFScored c) (h1 : qsLex a b) (h2 : qsLex b c) : qsLex a c := by
  obtain ⟨ha1, ha2⟩ := hwa
  obtain ⟨hb1, hb2⟩ := hwb
  obtain ⟨hc1, hc2⟩ := hwc
  rcases h1 with h1 | ⟨he1, hp1⟩ <;> rcases h2 with h2 | ⟨he2, hp2⟩
  · exact Or.inl (scoreLt_trans3 hc1 hb1 ha1 h2 h1)
  · exact Or.inl (scoreEq_lt3 hc1 hb1 (scoreEq_symm he2) h1)
  · exact Or.inl (scoreLt_eq3 hb1 ha1 h2 (scoreEq_symm he1))
  · refine Or.inr ⟨scoreEq_trans3 hb1 he1 he2, ?_⟩
    rcases hp1 with hp1 | ⟨hpe1, hs1⟩ <;> rcases hp2 with hp2 | ⟨hpe2, hs2⟩
    · exact Or.inl (scoreLt_trans3 hc2 hb2 ha2 hp2 hp1)
    · exact Or.inl (scoreEq_lt3 hc2 hb2 (scoreEq_symm hpe2) hp1)
    · exact Or.inl (scoreLt_eq3 hb2 ha2 hp2 (scoreEq_symm hpe1))
    · exact Or.inr ⟨scoreEq_trans3 hb2 hpe1 hpe2,
        charsLe_trans _ _ _ hs1 hs2⟩

theorem qsLex_total (a b : ScoredEntry) : qsLex a b ∨ qsLex b a := by
  cases het : scoreEq a.titleScore b.titleScore with
  | false =>
    rcases score_trichotomy het with h | h
    · exact Or.inr (Or.inl h)
    · exact Or.inl (Or.inl h)
  | true =>
    cases hep : scoreEq a.pathScore b.pathScore with
    | false =>
      rcases score_trichotomy hep with h | h
      · exact Or.inr (Or.inr ⟨scoreEq_symm het, Or.inl h⟩)
      · exact Or.inl (Or.inr ⟨het, Or.inl h⟩)
    | true =>
      rcases charsLe_total a.entry.title.data b.entry.title.data with h | h
      · exact Or.inl (Or.inr ⟨het, Or.inr ⟨hep, h⟩⟩)
      · exact Or.inr (Or.inr ⟨scoreEq_symm het, Or.inr ⟨scoreEq_symm hep, h⟩⟩)

/-- Insertion into a sorted list stays sorted when the relation is total and
transitive on the elements involved. -/
theorem sorted_orderedInsert_of {α : Type} (r : α → α → Prop) [DecidableRel r]
    (P : α → Prop)
    (htr : ∀ x y z, P x → P y → P z → r x y → r y z → r x z)
    (hto : ∀ x y, P x → P y → r x y ∨ r y x) :
    ∀ (l : List α) (x : α), P x → (∀ y ∈ l, P y) → List.Sorted r l →
      List.Sorted r (List.orderedInsert r x l) := by
  intro l
  induction l with
  | nil =>
    intro x _ _ _
    simp [List.orderedInsert]
  | cons y l ih =>
    intro x hx hl hs
    rw [List.orderedInsert]
    obtain ⟨hy1, hy2⟩ := List.sorted_cons.mp hs
    by_cases hr : r x y
    · rw [if_pos hr]
      refine List.sorted_cons.mpr ⟨?_, hs⟩
      intro z hz
      rcases List.mem_cons.mp hz with rfl | hz2
      · exact hr
      · exact htr x y z hx (hl y (List.mem_cons_self _ _))
          (hl z (List.mem_cons_of_mem _ hz2)) hr (hy1 z hz2)
    · rw [if_neg hr]
      have hyx : r y x := (hto x y hx (hl y (List.mem_cons_self _ _))).resolve_left hr
      refine List.sorted_cons.mpr ⟨?_, ih x hx (fun z hz => hl z (List.mem_cons_of_mem _ hz)) hy2⟩
      intro z hz
      rcases (List.mem_orderedInsert r).mp hz with rfl | hz2
      · exact hyx
      · exact hy1 z hz2

/-- `insertionSort` sorts when the relation is total and transitive on the
list's elements. -/
theorem sorted_insertionSort_of {α : Type} (r : α → α → Prop) [DecidableRel r]
    (P : α → Prop)
    (htr : ∀ x y z, P x → P y → P z → r x y → r y z → r x z)
    (hto : ∀ x y, P x → P y → r x y ∨ r y x) :
    ∀ (l : List α), (∀ y ∈ l, P y) → List.Sorted r (List.insertionSort r l) := by
  intro l
  induction l with
  | nil => intro _; simp
  | cons x l ih =>
    intro hl
    rw [List.insertionSort]
    refine sorted_orderedInsert_of r P htr hto _ x (hl x (List.mem_cons_self _ _)) ?_
      (ih (fun y hy => hl y (List.mem_cons_of_mem _ hy)))
    intro y hy
    exact hl y (List.mem_cons_of_mem _
      ((List.perm_insertionSort r l).mem_iff.mp hy))

theorem fuzzyScore_den_pos (q t : String) : 0 < (fuzzyScore q t).den := by
  unfold fuzzyScore
  split
  · exact Nat.one_pos
  · split
    · exact Nat.one_pos
    · exact lt_of_lt_of_le Nat.one_pos (le_max_right _ _)

theorem searchScored_wf (st : IndexState) (nq : String) :
    ∀ se ∈ searchScored st nq, WFScored se := by
  intro se hse
  unfold searchScored at hse
  obtain ⟨hmem, _⟩ := List.mem_filter.mp hse
  obtain ⟨e, _, rfl⟩ := List.mem_map.mp hmem
  exact ⟨fuzzyScore_den_pos _ _, fuzzyScore_den_pos _ _⟩

theorem searchSorted_wf (st : IndexState) (nq : String) :
    ∀ se ∈ searchSorted st nq, WFScored se := by
  intro se hse
  exact searchScored_wf st nq se ((List.perm_insertionSort qsLe _).subset hse)

theorem qsLe_tier {a b : ScoredEntry} (h : qsLe a b)
    (hb : scorePos b.titleScore = true) : scorePos a.titleScore = true := by
  unfold qsLe qsLeB at h
  cases ha : scorePos a.titleScore with
  | true => rfl
  | false =>
    rw [if_pos (by rw [ha, hb]; simp)] at h
    rw [ha] at h
    exact absurd h (by simp)

/-- C9 counterexample: for the query `a`, the notes titled `ab` (at
`z/ab.md`) and `ax` (at `ax.md`) tie on title score and on the reported
overall score, yet the result order is `ax` before `ab` — the tie is broken
by the path score, not by title lexicographic order. -/
theorem quickSwitch_tie_counterexample :
    (searchNotesModel idxTie "a").1.map QuickSwitchItem.title = ["ax", "ab"]
    ∧ scoreEq (fuzzyScore "a" "ab") (fuzzyScore "a" "ax") = true
    ∧ (searchNotesModel idxTie "a").1.map QuickSwitchItem.score = [⟨2, 2⟩, ⟨2, 2⟩]
    ∧ strLe "ab" "ax" = true
    ∧ ("ab" : String) ≠ "ax" :=
  ⟨by decide, by decide, by decide, by decide, by decide⟩

/-- C9 (amended): for a nonempty normalized query the quick-switch results
are the top 50 of the candidate list sorted by the comparator; that order is
sorted, every title-tier note (positive title score) precedes every
path-only note, and on the well-formed candidates the comparator is exactly:
higher title score first, then higher path score, then title ascending —
ties on title score break by path score before title order. -/
theorem quickSwitch_ordering (st : IndexState) (query : String)
    (hq : (normalizeTitle query).data ≠ []) :
    List.Sorted qsLe (searchSorted st (normalizeTitle query))
    ∧ (searchNotesModel st query).1
        = ((searchSorted st (normalizeTitle query)).take 50).map (fun it =>
            { path := it.entry.path, title := it.entry.title,
              displayPath := relativePath st.vaultPath it.entry.path,
              score := it.score })
    ∧ (∀ a ∈ searchSorted st (normalizeTitle query),
        ∀ b ∈ searchSorted st (normalizeTitle query), (qsLe a b ↔ qsLex a b))
    ∧ List.Pairwise (fun a b => scorePos b.titleScore = true → scorePos a.titleScore = true)
        (searchSorted st (normalizeTitle query)) := by
  have hsorted : List.Sorted qsLe (searchSorted st (normalizeTitle query)) := by
    unfold searchSorted
    refine sorted_insertionSort_of qsLe WFScored ?_ ?_ _
      (searchScored_wf st (normalizeTitle query))
    · intro x y z hx hy hz h1 h2
      exact (qsLe_iff_qsLex hx hz).mpr
        (qsLex_trans hx hy hz ((qsLe_iff_qsLex hx hy).mp h1) ((qsLe_iff_qsLex hy hz).mp h2))
    · intro x y hx hy
      rcases qsLex_total x y with h | h
      · exact Or.inl ((qsLe_iff_qsLex hx hy).mpr h)
      · exact Or.inr ((qsLe_iff_qsLex hy hx).mpr h)
  refine ⟨hsorted, ?_, ?_, ?_⟩
  · unfold searchNotesModel
    rw [if_neg hq]
  · intro a ha b hb
    exact qsLe_iff_qsLex (searchSorted_wf st _ a ha) (searchSorted_wf st _ b hb)
  · exact hsorted.imp (fun h => qsLe_tier h)

/-- Witness for `quickSwitch_ordering` at the two-note tie vault and the
query `a`. -/
theorem quickSwitch_ordering_witness :
    ((normalizeTitle "a").data ≠ [])
    ∧ (List.Sorted qsLe (searchSorted idxTie (normalizeTitle "a"))
      ∧ (searchNotesModel idxTie "a").1
          = ((searchSorted idxTie (normalizeTitle "a")).take 50).map (fun it =>
              { path := it.entry.path, title := it.entry.title,
                displayPath := relativePath idxTie.vaultPath it.entry.path,
                score := it.score })
      ∧ (∀ a ∈ searchSorted idxTie (normalizeTitle "a"),
          ∀ b ∈ searchSorted idxTie (normalizeTitle "a"), (qsLe a b ↔ qsLex a b))
      ∧ List.Pairwise
          (fun a b => scorePos b.titleScore = true → scorePos a.titleScore = true)
          (searchSorted idxTie (normalizeTitle "a"))) :=
  ⟨by decide, quickSwitch_ordering idxTie "a" (by decide)⟩

/-- Witness for `fuzzyScore_subseq_iff` at a concrete input. -/
theorem fuzzyScore_subseq_iff_witness :
    ("ab" : String).data ≠ [] ∧
    ((scorePos (fuzzyScore "ab" "xaxb") = true ↔ List.Sublist ("ab" : String).data ("xaxb" : String).data)
      ∧ (fuzzyScore "ab" "xaxb" = scoreZero ↔ ¬ List.Sublist ("ab" : String).data ("xaxb" : String).data)
      ∧ (List.Sublist ("ab" : String).data ("xaxb" : String).data →
          (fuzzyScore "ab" "xaxb").den = max ("xaxb" : String).data.length 1)) :=
  ⟨by decide, fuzzyScore_subseq_iff "ab" "xaxb" (by decide)⟩

end VaultEngine
